import Mathlib

/-!
Verification of the lark full-inference analysis builder
(src/components/lark-type-check/src/full_inference/analysis/builder.rs).

The builder walks the HIR body of one function and produces a control-flow
graph (nodes + edges) together with four append-only fact relations
(accesses, overwritten, traverse, used) plus an interned path table and an
owner-path index.  This file gives a shallow embedding of that code:

* `PathData`, `NodeData`, `Analysis` mirror the analysis data model
  (identities are arena indices, i.e. `Nat`).
* `Place`, `ExpressionData`, `FnBody` mirror the read-only HIR input.
  HIR expressions are referenced by index into `FnBody.expressions`, as in
  the source; places are inlined trees (all the builder ever reads from a
  `hir::Place` index is its `PlaceData`, recursively).
* `Ty` mirrors `ty::Ty` with `repr: Erased` composed with the read-only
  unification snapshot: the `base` field is replaced by the outcome of
  `shallow_resolve_data` on it, `none` for the `Err` (unresolved) case and
  `some generics` for `Ok(BaseData { kind, generics })`; only
  `GenericKind::Ty` generics exist and `kind` is unused by the builder.
* `toCfgNode` is the `IntoNode` dynamic dispatch as a single recursive
  function over a closed sum `BuildItem` of the receiver kinds
  (`hir::Expression`, `hir::Place`, `hir::IdentifiedExpression`,
  `hir::List<_>`, `Option<_>`).  Rust recursion over table indices is made
  total with a fuel parameter; fuel exhaustion returns the predecessor
  unchanged and never occurs for well-formed (finite) bodies when the fuel
  exceeds the body size.

The `PathData::precise`/`PathData::owner` helpers and the `Analysis`
struct declaration live in the `analysis` module, which is not part of the
observed source; they are modelled from the spec where noted.
-/

namespace Lark

/-- A control-flow node identity: index into `Analysis.nodeDatas`. -/
abbrev Node := Nat

/-- A path identity: index into `Analysis.pathDatas`. -/
abbrev Path := Nat

/-- A permission variable (`Perm` in the source is an inference index). -/
abbrev Perm := Nat

/-- Data of an interned path (`PathData` in the analysis module).
`var` renders the source's `Variable` variant (a Lean keyword).
`temporary` carries the `hir::Expression` index of the producing
expression; `field` carries the owning path and the projection name text. -/
inductive PathData where
  | var (v : Nat)
  | entity (e : Nat)
  | temporary (e : Nat)
  | field (owner : Path) (name : Nat)
  | index (owner : Path)
deriving DecidableEq, Repr

/-- Modelled from the spec (the `PathData` impl is in the analysis module,
not in the observed source): every `Field`/`Index` path has exactly one
owner; `Variable`/`Entity`/`Temporary` paths have none. -/
def PathData.owner : PathData → Option Path
  | .field o _ => some o
  | .index o => some o
  | .var _ => none
  | .entity _ => none
  | .temporary _ => none

/-- Modelled from the spec (the `PathData::precise` method is in the
analysis module, not in the observed source): "A path is precise iff it
has no owner."  The source passes the path table to `precise`; the spec
rule does not consult it, so the parameter is unused. -/
def PathData.precise (pd : PathData) (_tbl : List PathData) : Bool :=
  pd.owner.isNone

/-- True exactly on the `index` variant. -/
def PathData.isIndex : PathData → Bool
  | .index _ => true
  | _ => false

/-- Data of a control-flow node (`NodeData` in the analysis module):
either "evaluation of expression `e` completed here" or the synthetic
join point of the `if` expression `e`. -/
inductive NodeData where
  | expression (e : Nat)
  | join (e : Nat)
deriving DecidableEq, Repr

/-- The analysis result being built (`Analysis` in the analysis module):
append-only arenas and relations.  Identities are list indices. -/
structure Analysis where
  nodeDatas : List NodeData
  cfgEdges : List (Node × Node)
  pathDatas : List PathData
  ownerPaths : List (Path × Path)
  accesses : List (Perm × Path × Node)
  overwritten : List (Path × Node)
  traverse : List (Path × Node)
  used : List (Perm × Node)
deriving DecidableEq, Repr

/-- The empty analysis (fresh output for one function body). -/
def Analysis.empty : Analysis := ⟨[], [], [], [], [], [], [], []⟩

/-- A HIR place (`hir::PlaceData`), inlined as a tree: the builder only
ever consults `fn_body[place]`, recursively.  `temporary` holds the index
of the underlying `hir::Expression`; `field` holds the owner place and the
`hir::Identifier` index of the projection name. -/
inductive Place where
  | var (v : Nat)
  | entity (e : Nat)
  | temporary (e : Nat)
  | field (owner : Place) (name : Nat)
deriving DecidableEq, Repr

/-- A HIR expression (`hir::ExpressionData`).  Sub-expressions are indices
into `FnBody.expressions`; field lists are indices into
`FnBody.identifieds`.  Payload fields the builder never reads (spans,
diagnostics, literal data, operators) are dropped or kept as plain `Nat`s
exactly as far as the builder's patterns mention them. -/
inductive ExpressionData where
  | letE (v : Nat) (initializer : Option Nat) (body : Nat)
  | place (place : Place)
  | assignment (place : Place) (value : Nat)
  | methodCall (method : Nat) (arguments : List Nat)
  | call (function : Nat) (arguments : List Nat)
  | ifE (condition : Nat) (ifTrue : Nat) (ifFalse : Nat)
  | binary (op : Nat) (left : Nat) (right : Nat)
  | unary (op : Nat) (value : Nat)
  | error
  | unit
  | literal (d : Nat)
  | aggregate (entity : Nat) (fields : List Nat)
  | sequence (first : Nat) (second : Nat)
deriving DecidableEq, Repr

/-- The read-only HIR function body (`hir::FnBody`): lookup tables from
indices to data.  `identifieds` maps a `hir::IdentifiedExpression` index
to its `expression` field; `names` maps a `hir::Identifier` index to its
`text`. -/
structure FnBody where
  expressions : List ExpressionData
  identifieds : List Nat
  names : List Nat
deriving DecidableEq, Repr

/-- A type as the builder sees it: `ty::Ty { repr: Erased, perm, base }`
composed with the read-only unification snapshot.  `base = none` renders
`shallow_resolve_data` returning `Err` (still-unconstrained inference
variable); `base = some generics` renders `Ok(BaseData { kind, generics })`
where `generics` keeps only the `GenericKind::Ty` payloads (the only kind
in this model) and `kind` is unused by the builder. -/
inductive Ty where
  | mk (perm : Perm) (base : Option (List Ty))

/-- The upstream type-check results (`TypeCheckResults<FullInference>`)
consumed as read-only lookup tables: the inferred type of each expression
and the access permission of each place-read expression. -/
structure TypeCheckResults where
  ty : Nat → Ty
  accessPermissions : Nat → Perm

/-- `AnalysisBuilder::push_node`: append a node, identity = index. -/
def pushNode (s : Analysis) (data : NodeData) : Node × Analysis :=
  (s.nodeDatas.length, { s with nodeDatas := s.nodeDatas ++ [data] })

/-- `AnalysisBuilder::push_edge`: append a CFG edge. -/
def pushEdge (s : Analysis) (from_ to_ : Node) : Analysis :=
  { s with cfgEdges := s.cfgEdges ++ [(from_, to_)] }

/-- `AnalysisBuilder::push_node_edge`: fresh node plus edge from
`startNode` to it. -/
def pushNodeEdge (s : Analysis) (startNode : Node) (data : NodeData) :
    Node × Analysis :=
  let n := pushNode s data
  (n.1, pushEdge n.2 startNode n.1)

/-- Models the `FxIndexMap` entry lookup: index of the first structurally
equal key, in insertion order. -/
def findPath (l : List PathData) (pd : PathData) : Option Nat :=
  match l with
  | [] => none
  | q :: rest => if q = pd then some 0 else (findPath rest pd).map Nat.succ

/-- `AnalysisBuilder::create_path`: intern a path descriptor.  An equal
descriptor seen before returns its existing identity with no state change
(the `Entry::Occupied` arm); otherwise the next sequential identity is
assigned, the descriptor appended, and for owned descriptors the pair
`(owner, new_path)` recorded in the owner-path index (`Entry::Vacant`).
The source keeps the keys both in the builder's `FxIndexMap` and in
`analysis.path_datas`, asserting the indices agree; the single list here
is that common arena. -/
def createPath (s : Analysis) (path_data : PathData) : Path × Analysis :=
  match findPath s.pathDatas path_data with
  | some i => (i, s)
  | none =>
    let path := s.pathDatas.length
    let s2 := { s with pathDatas := s.pathDatas ++ [path_data] }
    let s3 :=
      match path_data.owner with
      | some owner => { s2 with ownerPaths := s2.ownerPaths ++ [(owner, path)] }
      | none => s2
    (path, s3)

/-- `AnalysisBuilder::path`: convert a HIR place into an interned path.
For a field projection the owner place is resolved to a path first, then
`Field { owner, name }` is interned with the name's text; the dead
`if false { create_path(Index { owner }) }` guard of the source is kept
verbatim. -/
def pathOfPlace (fb : FnBody) : Place → Analysis → Path × Analysis
  | .var v, s => createPath s (.var v)
  | .entity e, s => createPath s (.entity e)
  | .temporary e, s => createPath s (.temporary e)
  | .field owner name, s =>
    let nameText := fb.names.getD name 0
    let po := pathOfPlace fb owner s
    let s2 := if False then (createPath po.2 (.index po.1)).2 else po.2
    createPath s2 (.field po.1 nameText)

/-- `AnalysisBuilder::access`: record an access fact. -/
def access (s : Analysis) (perm : Perm) (path : Path) (node : Node) : Analysis :=
  { s with accesses := s.accesses ++ [(perm, path, node)] }

/-- `AnalysisBuilder::generate_assignment_facts`: at an assignment into
`path` executing at `node`, record `Overwritten(path, node)` when the
path's data is precise, and `Traverse(owner, node)` when it has an owner. -/
def generateAssignmentFacts (s : Analysis) (path : Path) (node : Node) : Analysis :=
  let path_data := s.pathDatas.getD path (PathData.var 0)
  let s2 :=
    if path_data.precise s.pathDatas then
      { s with overwritten := s.overwritten ++ [(path, node)] }
    else s
  match path_data.owner with
  | some owner => { s2 with traverse := s2.traverse ++ [(owner, node)] }
  | none => s2

mutual
/-- `AnalysisBuilder::use_ty`: record `Used(perm, node)` for the top
layer, then recurse into each `GenericKind::Ty` generic of the resolved
base at the same node; the `Err` (unresolved) arm does nothing. -/
def useTy (s : Analysis) (node : Node) : Ty → Analysis
  | .mk perm base =>
    let s2 := { s with used := s.used ++ [(perm, node)] }
    match base with
    | some generics => useTyList s2 node generics
    | none => s2

/-- The `for generic in generics.iter()` loop of `use_ty`. -/
def useTyList (s : Analysis) (node : Node) : List Ty → Analysis
  | [] => s
  | t :: ts => useTyList (useTy s node t) node ts
end

/-- `AnalysisBuilder::use_result_of`: `use_ty` on the expression's
inferred type. -/
def useResultOf (r : TypeCheckResults) (s : Analysis) (node : Node) (e : Nat) :
    Analysis :=
  useTy s node (r.ty e)

/-- The closed sum of `IntoNode` receiver kinds, one constructor per
`impl IntoNode for _` in the source (the `&N` impl is the implicit
dereference of the embedding). -/
inductive BuildItem where
  | expr (e : Nat)
  | place (pl : Place)
  | identExpr (ie : Nat)
  | exprList (es : List Nat)
  | identList (fs : List Nat)
  | opt (oe : Option Nat)
deriving DecidableEq, Repr

/-- The `IntoNode::to_cfg_node` dynamic dispatch as one recursive
function: given the predecessor node and a receiver, build control flow
and facts, returning the node at which evaluation has just completed.
The fuel argument makes the index-directed recursion total; all recursive
calls run at one fuel less, and exhausted fuel returns the predecessor
unchanged (never reached with fuel above the body size). -/
def toCfgNode (fb : FnBody) (r : TypeCheckResults) :
    Nat → BuildItem → Node → Analysis → Node × Analysis
  | 0, _, startNode, s => (startNode, s)
  | fuel + 1, item, startNode, s =>
    match item with
    | .expr e =>
      match fb.expressions.getD e ExpressionData.error with
      | .letE _ initializer body =>
        -- First, we evaluate `I`...
        let ri := toCfgNode fb r fuel (.opt initializer) startNode s
        -- ... the assignment into the variable occurs at the node of the
        -- `let` itself ...
        let rs := pushNodeEdge ri.2 ri.1 (NodeData.expression e)
        let s2 :=
          match initializer with
          | some initializer => useResultOf r rs.2 rs.1 initializer
          | none => rs.2
        -- ... finally the body `B` is evaluated.
        toCfgNode fb r fuel (.expr body) rs.1 s2
      | .place pl =>
        let rp := toCfgNode fb r fuel (.place pl) startNode s
        let rs := pushNodeEdge rp.2 rp.1 (NodeData.expression e)
        let perm := r.accessPermissions e
        let pp := pathOfPlace fb pl rs.2
        (rs.1, access pp.2 perm pp.1 rs.1)
      | .assignment pl value =>
        let rp := toCfgNode fb r fuel (.place pl) startNode s
        let rv := toCfgNode fb r fuel (.expr value) rp.1 rp.2
        let rs := pushNodeEdge rv.2 rv.1 (NodeData.expression e)
        let pp := pathOfPlace fb pl rs.2
        (rs.1, generateAssignmentFacts pp.2 pp.1 rs.1)
      | .methodCall _ arguments =>
        let ra := toCfgNode fb r fuel (.exprList arguments) startNode s
        let rs := pushNodeEdge ra.2 ra.1 (NodeData.expression e)
        (rs.1, arguments.foldl (fun s3 argument => useResultOf r s3 rs.1 argument) rs.2)
      | .call function arguments =>
        let rf := toCfgNode fb r fuel (.expr function) startNode s
        let ra := toCfgNode fb r fuel (.exprList arguments) rf.1 rf.2
        let rs := pushNodeEdge ra.2 ra.1 (NodeData.expression e)
        (rs.1, arguments.foldl (fun s3 argument => useResultOf r s3 rs.1 argument) rs.2)
      | .ifE condition ifTrue ifFalse =>
        let rc := toCfgNode fb r fuel (.expr condition) startNode s
        -- an `if` "executes" when the condition is tested:
        let rs := pushNodeEdge rc.2 rc.1 (NodeData.expression e)
        let s2 := useResultOf r rs.2 rs.1 condition
        -- then the arms come afterwards:
        let rt := toCfgNode fb r fuel (.expr ifTrue) rs.1 s2
        let rf := toCfgNode fb r fuel (.expr ifFalse) rs.1 rt.2
        -- a node to rejoin the control-flows:
        let rj := pushNode rf.2 (NodeData.join e)
        let s3 := pushEdge rj.2 rt.1 rj.1
        let s4 := pushEdge s3 rf.1 rj.1
        (rj.1, s4)
      | .binary _ left right =>
        let rl := toCfgNode fb r fuel (.expr left) startNode s
        let rr := toCfgNode fb r fuel (.expr right) rl.1 rl.2
        let rs := pushNodeEdge rr.2 rr.1 (NodeData.expression e)
        let s2 := useResultOf r rs.2 rs.1 left
        (rs.1, useResultOf r s2 rs.1 right)
      | .unary _ value =>
        let rv := toCfgNode fb r fuel (.expr value) startNode s
        let rs := pushNodeEdge rv.2 rv.1 (NodeData.expression e)
        (rs.1, useResultOf r rs.2 rs.1 value)
      | .error => pushNodeEdge s startNode (NodeData.expression e)
      | .unit => pushNodeEdge s startNode (NodeData.expression e)
      | .literal _ => pushNodeEdge s startNode (NodeData.expression e)
      | .aggregate _ fields =>
        let rfi := toCfgNode fb r fuel (.identList fields) startNode s
        let rs := pushNodeEdge rfi.2 rfi.1 (NodeData.expression e)
        (rs.1, fields.foldl
          (fun s3 field => useResultOf r s3 rs.1 (fb.identifieds.getD field 0)) rs.2)
      | .sequence first second =>
        let r1 := toCfgNode fb r fuel (.expr first) startNode s
        let r2 := toCfgNode fb r fuel (.expr second) r1.1 r1.2
        pushNodeEdge r2.2 r2.1 (NodeData.expression e)
    | .place pl =>
      match pl with
      | .var _ => (startNode, s)
      | .entity _ => (startNode, s)
      | .temporary expression => toCfgNode fb r fuel (.expr expression) startNode s
      | .field owner _ => toCfgNode fb r fuel (.place owner) startNode s
    | .identExpr ie => toCfgNode fb r fuel (.expr (fb.identifieds.getD ie 0)) startNode s
    | .exprList es =>
      match es with
      | [] => (startNode, s)
      | elem :: rest =>
        let r1 := toCfgNode fb r fuel (.expr elem) startNode s
        toCfgNode fb r fuel (.exprList rest) r1.1 r1.2
    | .identList fs =>
      match fs with
      | [] => (startNode, s)
      | elem :: rest =>
        let r1 := toCfgNode fb r fuel (.identExpr elem) startNode s
        toCfgNode fb r fuel (.identList rest) r1.1 r1.2
    | .opt oe =>
      match oe with
      | none => (startNode, s)
      | some v => toCfgNode fb r fuel (.expr v) startNode s

/-! ### Helper notions: list growth -/

/-- `l2` extends `l` at the end (append-only growth). -/
def ListGrows {α : Type} (l l2 : List α) : Prop := ∃ t, l2 = l ++ t

theorem ListGrows.self {α : Type} (l : List α) : ListGrows l l :=
  ⟨[], (List.append_nil l).symm⟩

theorem ListGrows.of_eq {α : Type} {l l2 : List α} (h : l2 = l) : ListGrows l l2 :=
  h ▸ ListGrows.self l

theorem ListGrows.chain {α : Type} {l l2 l3 : List α}
    (h : ListGrows l l2) (h2 : ListGrows l2 l3) : ListGrows l l3 := by
  obtain ⟨t, rfl⟩ := h
  obtain ⟨t2, rfl⟩ := h2
  exact ⟨t ++ t2, List.append_assoc l t t2⟩

theorem ListGrows.append {α : Type} (l t : List α) : ListGrows l (l ++ t) := ⟨t, rfl⟩

theorem ListGrows.length_le {α : Type} {l l2 : List α} (h : ListGrows l l2) :
    l.length ≤ l2.length := by
  obtain ⟨t, rfl⟩ := h
  simp

theorem ListGrows.getElem? {α : Type} {l l2 : List α} {i : Nat} {a : α}
    (h : ListGrows l l2) (hg : l[i]? = some a) : l2[i]? = some a := by
  obtain ⟨t, rfl⟩ := h
  obtain ⟨hlt, _⟩ := List.getElem?_eq_some.mp hg
  rw [List.getElem?_append_left hlt]
  exact hg

theorem ListGrows.mem {α : Type} {l l2 : List α} {a : α}
    (h : ListGrows l l2) (ha : a ∈ l) : a ∈ l2 := by
  obtain ⟨t, rfl⟩ := h
  exact List.mem_append_left t ha

/-! ### findPath (FxIndexMap lookup) lemmas -/

theorem findPath_get {pd : PathData} :
    ∀ {l : List PathData} {i : Nat}, findPath l pd = some i → l[i]? = some pd := by
  intro l
  induction l with
  | nil => intro i h; simp [findPath] at h
  | cons q rest ih =>
    intro i h
    by_cases hq : q = pd
    · simp [findPath, hq] at h
      subst h
      simp [hq]
    · simp [findPath, hq] at h
      obtain ⟨j, hj, rfl⟩ := h
      simpa using ih hj

theorem findPath_eq_none {pd : PathData} :
    ∀ {l : List PathData}, findPath l pd = none ↔ pd ∉ l := by
  intro l
  induction l with
  | nil => simp [findPath]
  | cons q rest ih =>
    by_cases hq : q = pd
    · simp [findPath, hq]
    · simp [findPath, hq, ih, Ne.symm hq]

theorem findPath_append_some {pd : PathData} :
    ∀ {l : List PathData} {i : Nat} (t : List PathData),
      findPath l pd = some i → findPath (l ++ t) pd = some i := by
  intro l
  induction l with
  | nil => intro i t h; simp [findPath] at h
  | cons q rest ih =>
    intro i t h
    by_cases hq : q = pd
    · simp [findPath, hq] at h ⊢
      exact h
    · simp [findPath, hq] at h ⊢
      obtain ⟨j, hj, rfl⟩ := h
      exact ⟨j, ih t hj, rfl⟩

theorem findPath_append_self {pd : PathData} :
    ∀ {l : List PathData}, pd ∉ l → findPath (l ++ [pd]) pd = some l.length := by
  intro l
  induction l with
  | nil => intro _; simp [findPath]
  | cons q rest ih =>
    intro h
    have hq : ¬q = pd := fun e => h (e ▸ List.mem_cons_self q rest)
    have hr : pd ∉ rest := fun e => h (List.mem_cons_of_mem q e)
    simp [findPath, hq, ih hr]

/-! ### createPath lemmas -/

theorem createPath_found (s : Analysis) (pd : PathData) :
    (createPath s pd).2.pathDatas[(createPath s pd).1]? = some pd := by
  unfold createPath
  cases h : findPath s.pathDatas pd with
  | some i => exact findPath_get h
  | none =>
    cases ho : pd.owner <;>
      exact List.getElem?_concat_length s.pathDatas pd

theorem createPath_findPath (s : Analysis) (pd : PathData) :
    findPath (createPath s pd).2.pathDatas pd = some (createPath s pd).1 := by
  unfold createPath
  cases h : findPath s.pathDatas pd with
  | some i => simpa using h
  | none =>
    have hnm : pd ∉ s.pathDatas := findPath_eq_none.mp h
    cases ho : pd.owner <;> simpa [ho] using findPath_append_self hnm

theorem createPath_occupied {s : Analysis} {pd : PathData} {i : Nat}
    (h : findPath s.pathDatas pd = some i) : createPath s pd = (i, s) := by
  simp [createPath, h]

theorem createPath_vacant {s : Analysis} {pd : PathData} (h : pd ∉ s.pathDatas) :
    (createPath s pd).1 = s.pathDatas.length
    ∧ (createPath s pd).2.pathDatas = s.pathDatas ++ [pd]
    ∧ (∀ o, pd.owner = some o →
        (createPath s pd).2.ownerPaths = s.ownerPaths ++ [(o, s.pathDatas.length)])
    ∧ (pd.owner = none → (createPath s pd).2.ownerPaths = s.ownerPaths) := by
  have hf : findPath s.pathDatas pd = none := findPath_eq_none.mpr h
  unfold createPath
  rw [hf]
  cases ho : pd.owner <;> simp [ho]

/-- All state components of `createPath` other than the path table and the
owner index are untouched; both of those grow append-only; every new table
entry is the interned descriptor itself. -/
theorem createPath_spec (s : Analysis) (pd : PathData) :
    (createPath s pd).2.nodeDatas = s.nodeDatas
    ∧ (createPath s pd).2.cfgEdges = s.cfgEdges
    ∧ (createPath s pd).2.accesses = s.accesses
    ∧ (createPath s pd).2.overwritten = s.overwritten
    ∧ (createPath s pd).2.traverse = s.traverse
    ∧ (createPath s pd).2.used = s.used
    ∧ ListGrows s.pathDatas (createPath s pd).2.pathDatas
    ∧ ListGrows s.ownerPaths (createPath s pd).2.ownerPaths
    ∧ (∀ q ∈ (createPath s pd).2.pathDatas, q ∈ s.pathDatas ∨ q = pd) := by
  unfold createPath
  cases h : findPath s.pathDatas pd with
  | some i =>
    exact ⟨rfl, rfl, rfl, rfl, rfl, rfl, ListGrows.self _, ListGrows.self _,
      fun q hq => Or.inl hq⟩
  | none =>
    have hmem : ∀ q ∈ s.pathDatas ++ [pd], q ∈ s.pathDatas ∨ q = pd := by
      intro q hq
      rcases List.mem_append.mp hq with hq2 | hq2
      · exact Or.inl hq2
      · exact Or.inr (List.mem_singleton.mp hq2)
    cases ho : pd.owner with
    | none =>
      exact ⟨rfl, rfl, rfl, rfl, rfl, rfl, ListGrows.append _ _, ListGrows.self _, hmem⟩
    | some o =>
      exact ⟨rfl, rfl, rfl, rfl, rfl, rfl, ListGrows.append _ _, ListGrows.append _ _, hmem⟩

/-! ### pathOfPlace lemmas -/

/-- `path` never touches the control-flow graph or the fact relations; it
only grows the path table and owner index, never interning an `Index`
descriptor, and returns a valid identity for the interned descriptor. -/
theorem pathOfPlace_spec (fb : FnBody) :
    ∀ (pl : Place) (s : Analysis),
      (pathOfPlace fb pl s).2.nodeDatas = s.nodeDatas
      ∧ (pathOfPlace fb pl s).2.cfgEdges = s.cfgEdges
      ∧ (pathOfPlace fb pl s).2.accesses = s.accesses
      ∧ (pathOfPlace fb pl s).2.overwritten = s.overwritten
      ∧ (pathOfPlace fb pl s).2.traverse = s.traverse
      ∧ (pathOfPlace fb pl s).2.used = s.used
      ∧ ListGrows s.pathDatas (pathOfPlace fb pl s).2.pathDatas
      ∧ ListGrows s.ownerPaths (pathOfPlace fb pl s).2.ownerPaths
      ∧ (∀ q ∈ (pathOfPlace fb pl s).2.pathDatas,
          q ∈ s.pathDatas ∨ q.isIndex = false)
      ∧ ∃ pd, (pathOfPlace fb pl s).2.pathDatas[(pathOfPlace fb pl s).1]? = some pd
          ∧ pd.isIndex = false := by
  intro pl
  induction pl with
  | var v =>
    intro s
    obtain ⟨h1, h2, h3, h4, h5, h6, h7, h8, h9⟩ := createPath_spec s (.var v)
    exact ⟨h1, h2, h3, h4, h5, h6, h7, h8,
      fun q hq => (h9 q hq).imp id (fun e => by simp [e, PathData.isIndex]),
      ⟨.var v, createPath_found s (.var v), rfl⟩⟩
  | entity e =>
    intro s
    obtain ⟨h1, h2, h3, h4, h5, h6, h7, h8, h9⟩ := createPath_spec s (.entity e)
    exact ⟨h1, h2, h3, h4, h5, h6, h7, h8,
      fun q hq => (h9 q hq).imp id (fun e2 => by simp [e2, PathData.isIndex]),
      ⟨.entity e, createPath_found s (.entity e), rfl⟩⟩
  | temporary e =>
    intro s
    obtain ⟨h1, h2, h3, h4, h5, h6, h7, h8, h9⟩ := createPath_spec s (.temporary e)
    exact ⟨h1, h2, h3, h4, h5, h6, h7, h8,
      fun q hq => (h9 q hq).imp id (fun e2 => by simp [e2, PathData.isIndex]),
      ⟨.temporary e, createPath_found s (.temporary e), rfl⟩⟩
  | field owner name ih =>
    intro s
    obtain ⟨h1, h2, h3, h4, h5, h6, h7, h8, h9, _⟩ := ih s
    have heq : pathOfPlace fb (.field owner name) s =
        createPath (pathOfPlace fb owner s).2
          (.field (pathOfPlace fb owner s).1 (fb.names.getD name 0)) := by
      simp [pathOfPlace]
    set s1 := (pathOfPlace fb owner s).2 with hs1
    set pd := PathData.field (pathOfPlace fb owner s).1 (fb.names.getD name 0) with hpd
    obtain ⟨g1, g2, g3, g4, g5, g6, g7, g8, g9⟩ := createPath_spec s1 pd
    rw [heq]
    refine ⟨g1.trans h1, g2.trans h2, g3.trans h3, g4.trans h4, g5.trans h5,
      g6.trans h6, h7.chain g7, h8.chain g8, ?_, ?_⟩
    · intro q hq
      rcases g9 q hq with hq2 | hq2
      · exact (h9 q hq2).imp id id
      · exact Or.inr (by simp [hq2, hpd, PathData.isIndex])
    · exact ⟨pd, createPath_found s1 pd, by simp [hpd, PathData.isIndex]⟩

/-! ### use_ty lemmas -/

/-- `s2` differs from `s` only by appended `Used` facts, all tagged with
node `n`. -/
def UsedOnlyAt (s s2 : Analysis) (n : Node) : Prop :=
  s2.nodeDatas = s.nodeDatas ∧ s2.cfgEdges = s.cfgEdges
  ∧ s2.pathDatas = s.pathDatas ∧ s2.ownerPaths = s.ownerPaths
  ∧ s2.accesses = s.accesses ∧ s2.overwritten = s.overwritten
  ∧ s2.traverse = s.traverse
  ∧ ∃ l, s2.used = s.used ++ l ∧ ∀ u ∈ l, u.2 = n

theorem UsedOnlyAt.here (s : Analysis) (n : Node) : UsedOnlyAt s s n :=
  ⟨rfl, rfl, rfl, rfl, rfl, rfl, rfl, [], (List.append_nil s.used).symm,
    fun _ hu => absurd hu (List.not_mem_nil _)⟩

theorem UsedOnlyAt.comp {s s2 s3 : Analysis} {n : Node}
    (h : UsedOnlyAt s s2 n) (h2 : UsedOnlyAt s2 s3 n) : UsedOnlyAt s s3 n := by
  obtain ⟨a1, a2, a3, a4, a5, a6, a7, l, hl, htag⟩ := h
  obtain ⟨b1, b2, b3, b4, b5, b6, b7, l2, hl2, htag2⟩ := h2
  refine ⟨b1.trans a1, b2.trans a2, b3.trans a3, b4.trans a4, b5.trans a5,
    b6.trans a6, b7.trans a7, l ++ l2, ?_, ?_⟩
  · rw [hl2, hl, List.append_assoc]
  · intro u hu
    rcases List.mem_append.mp hu with hu2 | hu2
    · exact htag u hu2
    · exact htag2 u hu2

theorem UsedOnlyAt.push (s : Analysis) (p : Perm) (n : Node) :
    UsedOnlyAt s { s with used := s.used ++ [(p, n)] } n :=
  ⟨rfl, rfl, rfl, rfl, rfl, rfl, rfl, [(p, n)], rfl,
    fun u hu => by simp [List.mem_singleton.mp hu]⟩

mutual
theorem useTy_usedOnlyAt : ∀ (t : Ty) (s : Analysis) (n : Node),
    UsedOnlyAt s (useTy s n t) n
  | .mk p none, s, n => UsedOnlyAt.push s p n
  | .mk p (some gs), s, n =>
    (UsedOnlyAt.push s p n).comp
      (useTyList_usedOnlyAt gs { s with used := s.used ++ [(p, n)] } n)

theorem useTyList_usedOnlyAt : ∀ (gs : List Ty) (s : Analysis) (n : Node),
    UsedOnlyAt s (useTyList s n gs) n
  | [], s, n => UsedOnlyAt.here s n
  | t :: ts, s, n =>
    (useTy_usedOnlyAt t s n).comp (useTyList_usedOnlyAt ts (useTy s n t) n)
end

theorem useResultOf_usedOnlyAt (r : TypeCheckResults) (s : Analysis) (n : Node)
    (e : Nat) : UsedOnlyAt s (useResultOf r s n e) n :=
  useTy_usedOnlyAt (r.ty e) s n

theorem foldl_useResultOf_usedOnlyAt (r : TypeCheckResults) (n : Node) :
    ∀ (es : List Nat) (s : Analysis),
      UsedOnlyAt s (es.foldl (fun s2 a => useResultOf r s2 n a) s) n := by
  intro es
  induction es with
  | nil => intro s; exact UsedOnlyAt.here s n
  | cons a rest ih =>
    intro s
    exact (useResultOf_usedOnlyAt r s n a).comp (ih (useResultOf r s n a))

theorem foldl_useResultOf_ident_usedOnlyAt (fb : FnBody) (r : TypeCheckResults)
    (n : Node) :
    ∀ (fs : List Nat) (s : Analysis),
      UsedOnlyAt s
        (fs.foldl (fun s2 f => useResultOf r s2 n (fb.identifieds.getD f 0)) s) n := by
  intro fs
  induction fs with
  | nil => intro s; exact UsedOnlyAt.here s n
  | cons a rest ih =>
    intro s
    exact (useResultOf_usedOnlyAt r s n (fb.identifieds.getD a 0)).comp
      (ih (useResultOf r s n (fb.identifieds.getD a 0)))

/-! ### Type-layer measures (for the type-use layering claims) -/

mutual
/-- Number of permission-bearing layers of the resolvable prefix of a
type: one for the type itself plus, when its base resolves, the layers of
all its generic arguments. -/
def tyLayers : Ty → Nat
  | .mk _ none => 1
  | .mk _ (some gs) => 1 + tyLayersList gs

/-- Sum of `tyLayers` over a generics list. -/
def tyLayersList : List Ty → Nat
  | [] => 0
  | t :: ts => tyLayers t + tyLayersList ts
end

mutual
/-- Generic nesting depth of a type in the sense of the spec: `T` has
depth 0, `Inner<T>` depth 1, `Outer<Inner<T>>` depth 2 (the deepest chain
of generic-argument nesting). -/
def tyDepth : Ty → Nat
  | .mk _ none => 0
  | .mk _ (some gs) => tyDepthList gs

/-- Depth contribution of a generics list: maximum over one plus each
argument's depth (zero for an empty list). -/
def tyDepthList : List Ty → Nat
  | [] => 0
  | t :: ts => max (tyDepth t + 1) (tyDepthList ts)
end

mutual
/-- The base resolves at every level of the type. -/
def tyAllResolved : Ty → Bool
  | .mk _ none => false
  | .mk _ (some gs) => tyAllResolvedList gs

/-- `tyAllResolved` over a generics list. -/
def tyAllResolvedList : List Ty → Bool
  | [] => true
  | t :: ts => tyAllResolved t && tyAllResolvedList ts
end

/-- The type is a linear chain: its base resolves at every level and
every level carries at most one generic argument. -/
def tyLinearResolved : Ty → Bool
  | .mk _ none => false
  | .mk _ (some []) => true
  | .mk _ (some [t]) => tyLinearResolved t
  | .mk _ (some (_ :: _ :: _)) => false

mutual
theorem useTy_used_length : ∀ (t : Ty) (s : Analysis) (n : Node),
    (useTy s n t).used.length = s.used.length + tyLayers t
  | .mk p none, s, n => by simp [useTy, tyLayers]
  | .mk p (some gs), s, n => by
    have h := useTyList_used_length gs { s with used := s.used ++ [(p, n)] } n
    simp only [useTy]
    simp only [h]
    simp [tyLayers]
    omega

theorem useTyList_used_length : ∀ (gs : List Ty) (s : Analysis) (n : Node),
    (useTyList s n gs).used.length = s.used.length + tyLayersList gs
  | [], s, n => by simp [useTyList, tyLayersList]
  | t :: ts, s, n => by
    have h1 := useTy_used_length t s n
    have h2 := useTyList_used_length ts (useTy s n t) n
    simp only [useTyList]
    simp only [h2, h1, tyLayersList]
    omega
end

theorem tyLinearResolved_layers :
    ∀ (t : Ty), tyLinearResolved t = true → tyLayers t = tyDepth t + 1
  | .mk p none, h => by simp [tyLinearResolved] at h
  | .mk p (some []), _ => by
    simp [tyLayers, tyLayersList, tyDepth, tyDepthList]
  | .mk p (some [t]), h => by
    have hrec := tyLinearResolved_layers t (by simpa [tyLinearResolved] using h)
    simp [tyLayers, tyLayersList, tyDepth, tyDepthList, hrec]
    omega
  | .mk p (some (a :: b :: rest)), h => by simp [tyLinearResolved] at h

/-! ### Canonicalisation of unresolved sub-trees (for the silence claim) -/

mutual
/-- Replace every unresolved base in the type by a resolved base with no
generic arguments: the type with each unresolved sub-tree absent. -/
def Ty.canon : Ty → Ty
  | .mk p none => .mk p (some [])
  | .mk p (some gs) => .mk p (some (Ty.canonList gs))

/-- `Ty.canon` over a generics list. -/
def Ty.canonList : List Ty → List Ty
  | [] => []
  | t :: ts => Ty.canon t :: Ty.canonList ts
end

mutual
theorem useTy_canon : ∀ (t : Ty) (s : Analysis) (n : Node),
    useTy s n (Ty.canon t) = useTy s n t
  | .mk p none, s, n => by simp [Ty.canon, useTy, useTyList]
  | .mk p (some gs), s, n => by
    have h := useTyList_canon gs { s with used := s.used ++ [(p, n)] } n
    simp [Ty.canon, useTy, h]

theorem useTyList_canon : ∀ (gs : List Ty) (s : Analysis) (n : Node),
    useTyList s n (Ty.canonList gs) = useTyList s n gs
  | [], s, n => by simp [Ty.canonList]
  | t :: ts, s, n => by
    have h1 := useTy_canon t s n
    have h2 := useTyList_canon ts (useTy s n t) n
    simp [Ty.canonList, useTyList, h1, h2]
end

/-- The type-check results with every type's unresolved sub-trees made
absent. -/
def canonResults (r : TypeCheckResults) : TypeCheckResults :=
  { ty := fun e => Ty.canon (r.ty e)
  , accessPermissions := r.accessPermissions }

/-! ### The build-step invariant -/

/-- Every arena and relation of `s2` extends the corresponding one of `s`
append-only. -/
structure Grows (s s2 : Analysis) : Prop where
  nodeDatas : ListGrows s.nodeDatas s2.nodeDatas
  cfgEdges : ListGrows s.cfgEdges s2.cfgEdges
  pathDatas : ListGrows s.pathDatas s2.pathDatas
  ownerPaths : ListGrows s.ownerPaths s2.ownerPaths
  accesses : ListGrows s.accesses s2.accesses
  overwritten : ListGrows s.overwritten s2.overwritten
  traverse : ListGrows s.traverse s2.traverse
  used : ListGrows s.used s2.used

theorem Grows.same (s : Analysis) : Grows s s :=
  ⟨ListGrows.self _, ListGrows.self _, ListGrows.self _, ListGrows.self _,
    ListGrows.self _, ListGrows.self _, ListGrows.self _, ListGrows.self _⟩

theorem Grows.through {s s2 s3 : Analysis} (h : Grows s s2) (h2 : Grows s2 s3) :
    Grows s s3 :=
  ⟨h.nodeDatas.chain h2.nodeDatas, h.cfgEdges.chain h2.cfgEdges,
    h.pathDatas.chain h2.pathDatas, h.ownerPaths.chain h2.ownerPaths,
    h.accesses.chain h2.accesses, h.overwritten.chain h2.overwritten,
    h.traverse.chain h2.traverse, h.used.chain h2.used⟩

theorem Grows.ofUsedOnlyAt {s s2 : Analysis} {n : Node} (h : UsedOnlyAt s s2 n) :
    Grows s s2 := by
  obtain ⟨a1, a2, a3, a4, a5, a6, a7, l, hl, _⟩ := h
  exact ⟨ListGrows.of_eq a1, ListGrows.of_eq a2, ListGrows.of_eq a3,
    ListGrows.of_eq a4, ListGrows.of_eq a5, ListGrows.of_eq a6,
    ListGrows.of_eq a7, hl ▸ ListGrows.append _ l⟩

/-- Every recorded edge runs from a strictly earlier node to a strictly
later, already-allocated node. -/
def GoodState (s : Analysis) : Prop :=
  ∀ ab ∈ s.cfgEdges, ab.1 < ab.2 ∧ ab.2 < s.nodeDatas.length

/-- Invariant of one builder step from predecessor `startNode` in state
`s` to result `res`: the state grows append-only; new path-table entries
are never `Index`; new `Overwritten` facts name ownerless paths; new
`Used` facts are tagged with nodes allocated no earlier than this step;
and when the predecessor is a valid node, the returned node is valid and
every new edge is forward-directed into a node allocated by this step. -/
structure StepOk (startNode : Node) (s : Analysis) (res : Node × Analysis) : Prop where
  grows : Grows s res.2
  pathsNew : ∀ pd ∈ res.2.pathDatas, pd ∈ s.pathDatas ∨ pd.isIndex = false
  overNew : ∀ pn ∈ res.2.overwritten, pn ∈ s.overwritten ∨
    ∃ pd, res.2.pathDatas[pn.1]? = some pd ∧ pd.owner = none
  usedNew : ∀ u ∈ res.2.used, u ∈ s.used ∨ s.nodeDatas.length ≤ u.2
  flow : startNode < s.nodeDatas.length →
    res.1 < res.2.nodeDatas.length
    ∧ ∀ ab ∈ res.2.cfgEdges, ab ∈ s.cfgEdges ∨
        (s.nodeDatas.length ≤ ab.2 ∧ ab.1 < ab.2 ∧ ab.2 < res.2.nodeDatas.length)

theorem stepOk_self (startNode : Node) (s : Analysis) :
    StepOk startNode s (startNode, s) :=
  ⟨Grows.same s, fun _ h => Or.inl h, fun _ h => Or.inl h, fun _ h => Or.inl h,
    fun h => ⟨h, fun _ hab => Or.inl hab⟩⟩

/-- Composition of steps; the second step may start from any node that is
valid in the intermediate state. -/
theorem StepOk.transAt {a : Node} {s : Analysis} {r1 : Node × Analysis}
    {b : Node} {r2 : Node × Analysis}
    (h1 : StepOk a s r1) (h2 : StepOk b r1.2 r2)
    (hb : a < s.nodeDatas.length → b < r1.2.nodeDatas.length) :
    StepOk a s r2 := by
  refine ⟨h1.grows.through h2.grows, ?_, ?_, ?_, ?_⟩
  · intro pd hpd
    rcases h2.pathsNew pd hpd with h | h
    · exact h1.pathsNew pd h
    · exact Or.inr h
  · intro pn hpn
    rcases h2.overNew pn hpn with h | h
    · rcases h1.overNew pn h with h3 | ⟨pd, hg, ho⟩
      · exact Or.inl h3
      · exact Or.inr ⟨pd, h2.grows.pathDatas.getElem? hg, ho⟩
    · exact Or.inr h
  · intro u hu
    rcases h2.usedNew u hu with h | h
    · exact h1.usedNew u h
    · exact Or.inr (le_trans h1.grows.nodeDatas.length_le h)
  · intro ha
    obtain ⟨hres, hedge⟩ := h2.flow (hb ha)
    refine ⟨hres, ?_⟩
    intro ab hab
    rcases hedge ab hab with h | h
    · rcases (h1.flow ha).2 ab h with h3 | ⟨hle, hlt, hlen⟩
      · exact Or.inl h3
      · exact Or.inr ⟨hle, hlt, lt_of_lt_of_le hlen h2.grows.nodeDatas.length_le⟩
    · exact Or.inr ⟨le_trans h1.grows.nodeDatas.length_le h.1, h.2.1, h.2.2⟩

/-- Composition where the second step starts at the node the first
returned (the common chaining pattern of the builder). -/
theorem StepOk.trans {a : Node} {s : Analysis} {r1 r2 : Node × Analysis}
    (h1 : StepOk a s r1) (h2 : StepOk r1.1 r1.2 r2) : StepOk a s r2 :=
  h1.transAt h2 (fun ha => (h1.flow ha).1)

theorem stepOk_pushNodeEdge (s : Analysis) (prev : Node) (d : NodeData) :
    StepOk prev s (pushNodeEdge s prev d) := by
  refine ⟨⟨ListGrows.append _ _, ListGrows.append _ _, ListGrows.self _,
      ListGrows.self _, ListGrows.self _, ListGrows.self _, ListGrows.self _,
      ListGrows.self _⟩,
    fun _ h => Or.inl h, fun _ h => Or.inl h, fun _ h => Or.inl h, ?_⟩
  intro hprev
  constructor
  · show s.nodeDatas.length < (s.nodeDatas ++ [d]).length
    simp
  · intro ab hab
    rcases List.mem_append.mp hab with h | h
    · exact Or.inl h
    · have : ab = (prev, s.nodeDatas.length) := List.mem_singleton.mp h
      subst this
      refine Or.inr ⟨le_refl _, hprev, ?_⟩
      show s.nodeDatas.length < (s.nodeDatas ++ [d]).length
      simp

/-- Appending only `Used` facts tagged at a node allocated during the
step preserves the step invariant. -/
theorem StepOk.postUsed {a : Node} {s : Analysis} {r1 : Node × Analysis}
    {s2 : Analysis} {n : Node}
    (h : StepOk a s r1) (hu : UsedOnlyAt r1.2 s2 n)
    (hn : s.nodeDatas.length ≤ n) :
    StepOk a s (r1.1, s2) := by
  obtain ⟨a1, a2, a3, a4, a5, a6, a7, l, hl, htag⟩ := hu
  refine ⟨h.grows.through (Grows.ofUsedOnlyAt ⟨a1, a2, a3, a4, a5, a6, a7, l, hl, htag⟩),
    ?_, ?_, ?_, ?_⟩
  · intro pd hpd
    exact h.pathsNew pd (a3 ▸ hpd)
  · intro pn hpn
    rcases h.overNew pn (a6 ▸ hpn) with h2 | ⟨pd, hg, ho⟩
    · exact Or.inl h2
    · exact Or.inr ⟨pd, a3 ▸ hg, ho⟩
  · intro u hu2
    rw [hl] at hu2
    rcases List.mem_append.mp hu2 with h2 | h2
    · exact h.usedNew u h2
    · exact Or.inr (htag u h2 ▸ hn)
  · intro ha
    exact ⟨a1 ▸ (h.flow ha).1, a2 ▸ a1 ▸ (h.flow ha).2⟩

/-- `generate_assignment_facts` at a valid path: all components except the
overwrite and traverse relations are untouched; an ownerless (precise)
target records exactly one `Overwritten` fact and no `Traverse`; an owned
target records exactly one `Traverse` fact naming the immediate owner and
no `Overwritten`. -/
theorem generateAssignmentFacts_spec (s : Analysis) (path : Path) (node : Node)
    (pd : PathData) (hpd : s.pathDatas[path]? = some pd) :
    (generateAssignmentFacts s path node).nodeDatas = s.nodeDatas
    ∧ (generateAssignmentFacts s path node).cfgEdges = s.cfgEdges
    ∧ (generateAssignmentFacts s path node).pathDatas = s.pathDatas
    ∧ (generateAssignmentFacts s path node).ownerPaths = s.ownerPaths
    ∧ (generateAssignmentFacts s path node).accesses = s.accesses
    ∧ (generateAssignmentFacts s path node).used = s.used
    ∧ (pd.owner = none →
        (generateAssignmentFacts s path node).overwritten = s.overwritten ++ [(path, node)]
        ∧ (generateAssignmentFacts s path node).traverse = s.traverse)
    ∧ (∀ o, pd.owner = some o →
        (generateAssignmentFacts s path node).overwritten = s.overwritten
        ∧ (generateAssignmentFacts s path node).traverse = s.traverse ++ [(o, node)]) := by
  have hget : s.pathDatas[path]?.getD (PathData.var 0) = pd := by
    rw [hpd]
    rfl
  cases ho : pd.owner with
  | none =>
    have hprec : pd.precise s.pathDatas = true := by
      simp [PathData.precise, ho]
    have hout : generateAssignmentFacts s path node =
        { s with overwritten := s.overwritten ++ [(path, node)] } := by
      simp [generateAssignmentFacts, hget, hprec, ho]
    rw [hout]
    exact ⟨rfl, rfl, rfl, rfl, rfl, rfl, fun _ => ⟨rfl, rfl⟩,
      fun o hoo => absurd hoo (by simp)⟩
  | some o =>
    have hprec : pd.precise s.pathDatas = false := by
      simp [PathData.precise, ho]
    have hout : generateAssignmentFacts s path node =
        { s with traverse := s.traverse ++ [(o, node)] } := by
      simp [generateAssignmentFacts, hget, hprec, ho]
    rw [hout]
    refine ⟨rfl, rfl, rfl, rfl, rfl, rfl, fun hn => absurd hn (by simp),
      fun o2 hoo => ?_⟩
    have ho2 : o = o2 := by injection hoo
    subst ho2
    exact ⟨rfl, rfl⟩

/-- The `Place` arm's tail (`path` then `access`) preserves the step
invariant. -/
theorem StepOk.postPathAccess {a : Node} {s : Analysis} {r1 : Node × Analysis}
    (fb : FnBody) (pl : Place) (perm : Perm) (n : Node) (h : StepOk a s r1) :
    StepOk a s (r1.1, access (pathOfPlace fb pl r1.2).2 perm (pathOfPlace fb pl r1.2).1 n) := by
  obtain ⟨p1, p2, p3, p4, p5, p6, p7, p8, p9, _⟩ := pathOfPlace_spec fb pl r1.2
  refine ⟨h.grows.through ⟨ListGrows.of_eq p1, ListGrows.of_eq p2, p7, p8,
      (ListGrows.of_eq p3).chain (ListGrows.append _ _), ListGrows.of_eq p4,
      ListGrows.of_eq p5, ListGrows.of_eq p6⟩, ?_, ?_, ?_, ?_⟩
  · intro pd hpd
    rcases p9 pd hpd with h2 | h2
    · exact h.pathsNew pd h2
    · exact Or.inr h2
  · intro pn hpn
    have hpn2 : pn ∈ r1.2.overwritten := p4 ▸ hpn
    rcases h.overNew pn hpn2 with h2 | ⟨pd, hg, ho⟩
    · exact Or.inl h2
    · exact Or.inr ⟨pd, p7.getElem? hg, ho⟩
  · intro u hu
    exact h.usedNew u (p6 ▸ hu)
  · intro ha
    exact ⟨p1 ▸ (h.flow ha).1, p2 ▸ p1 ▸ (h.flow ha).2⟩

/-- The `Assignment` arm's tail (`path` then
`generate_assignment_facts`) preserves the step invariant. -/
theorem StepOk.postPathAssign {a : Node} {s : Analysis} {r1 : Node × Analysis}
    (fb : FnBody) (pl : Place) (n : Node) (h : StepOk a s r1) :
    StepOk a s (r1.1, generateAssignmentFacts (pathOfPlace fb pl r1.2).2 (pathOfPlace fb pl r1.2).1 n) := by
  obtain ⟨p1, p2, p3, p4, p5, p6, p7, p8, p9, pd, hpd, _⟩ := pathOfPlace_spec fb pl r1.2
  obtain ⟨g1, g2, g3, g4, g5, g6, g7, g8⟩ :=
    generateAssignmentFacts_spec (pathOfPlace fb pl r1.2).2 (pathOfPlace fb pl r1.2).1 n pd hpd
  have hover : ListGrows (pathOfPlace fb pl r1.2).2.overwritten
      (generateAssignmentFacts (pathOfPlace fb pl r1.2).2 (pathOfPlace fb pl r1.2).1 n).overwritten := by
    cases ho : pd.owner with
    | none => exact (g7 ho).1 ▸ ListGrows.append _ _
    | some o => exact ListGrows.of_eq (g8 o ho).1
  have htrav : ListGrows (pathOfPlace fb pl r1.2).2.traverse
      (generateAssignmentFacts (pathOfPlace fb pl r1.2).2 (pathOfPlace fb pl r1.2).1 n).traverse := by
    cases ho : pd.owner with
    | none => exact ListGrows.of_eq (g7 ho).2
    | some o => exact (g8 o ho).2 ▸ ListGrows.append _ _
  refine ⟨h.grows.through ⟨(ListGrows.of_eq p1).chain (ListGrows.of_eq g1),
      (ListGrows.of_eq p2).chain (ListGrows.of_eq g2),
      p7.chain (ListGrows.of_eq g3), p8.chain (ListGrows.of_eq g4),
      (ListGrows.of_eq p3).chain (ListGrows.of_eq g5),
      (ListGrows.of_eq p4).chain hover, (ListGrows.of_eq p5).chain htrav,
      (ListGrows.of_eq p6).chain (ListGrows.of_eq g6)⟩, ?_, ?_, ?_, ?_⟩
  · intro pd2 hpd2
    rcases p9 pd2 (g3 ▸ hpd2) with h2 | h2
    · exact h.pathsNew pd2 h2
    · exact Or.inr h2
  · intro pn hpn
    by_cases hor : pd.owner = none
    · rw [(g7 hor).1] at hpn
      rcases List.mem_append.mp hpn with h2 | h2
      · rcases h.overNew pn (p4 ▸ h2) with h3 | ⟨pd3, hg, ho3⟩
        · exact Or.inl h3
        · exact Or.inr ⟨pd3, g3 ▸ p7.getElem? hg, ho3⟩
      · have : pn = ((pathOfPlace fb pl r1.2).1, n) := List.mem_singleton.mp h2
        subst this
        exact Or.inr ⟨pd, g3 ▸ hpd, hor⟩
    · obtain ⟨o, ho⟩ := Option.ne_none_iff_exists'.mp hor
      rw [(g8 o ho).1] at hpn
      rcases h.overNew pn (p4 ▸ hpn) with h3 | ⟨pd3, hg, ho3⟩
      · exact Or.inl h3
      · exact Or.inr ⟨pd3, g3 ▸ p7.getElem? hg, ho3⟩
  · intro u hu
    exact h.usedNew u (p6 ▸ g6 ▸ hu)
  · intro ha
    exact ⟨g1 ▸ p1 ▸ (h.flow ha).1, g2 ▸ g1 ▸ p2 ▸ p1 ▸ (h.flow ha).2⟩

/-- Master invariant: every builder step (any receiver kind, any fuel,
any predecessor and state) satisfies `StepOk`. -/
theorem stepOk_toCfgNode (fb : FnBody) (r : TypeCheckResults) :
    ∀ (fuel : Nat) (item : BuildItem) (startNode : Node) (s : Analysis),
      StepOk startNode s (toCfgNode fb r fuel item startNode s) := by
  intro fuel
  induction fuel with
  | zero =>
    intro item startNode s
    exact stepOk_self startNode s
  | succ fuel ih =>
    intro item startNode s
    cases item with
    | expr e =>
      cases hE : fb.expressions.getD e ExpressionData.error with
      | letE v initializer body =>
        simp only [toCfgNode, hE]
        cases initializer with
        | none =>
          exact ((ih (.opt none) startNode s).trans
            (stepOk_pushNodeEdge _ _ _)).trans (ih (.expr body) _ _)
        | some init =>
          exact (((ih (.opt (some init)) startNode s).trans
            (stepOk_pushNodeEdge _ _ _)).postUsed
            (useResultOf_usedOnlyAt r _ _ init)
            (ih (.opt (some init)) startNode s).grows.nodeDatas.length_le).trans
            (ih (.expr body) _ _)
      | place pl =>
        simp only [toCfgNode, hE]
        exact ((ih (.place pl) startNode s).trans
          (stepOk_pushNodeEdge _ _ _)).postPathAccess fb pl _ _
      | assignment pl value =>
        simp only [toCfgNode, hE]
        exact (((ih (.place pl) startNode s).trans
          (ih (.expr value) _ _)).trans
          (stepOk_pushNodeEdge _ _ _)).postPathAssign fb pl _
      | methodCall m arguments =>
        simp only [toCfgNode, hE]
        exact ((ih (.exprList arguments) startNode s).trans
          (stepOk_pushNodeEdge _ _ _)).postUsed
          (foldl_useResultOf_usedOnlyAt r _ arguments _)
          (ih (.exprList arguments) startNode s).grows.nodeDatas.length_le
      | call function arguments =>
        simp only [toCfgNode, hE]
        exact (((ih (.expr function) startNode s).trans
          (ih (.exprList arguments) _ _)).trans
          (stepOk_pushNodeEdge _ _ _)).postUsed
          (foldl_useResultOf_usedOnlyAt r _ arguments _)
          ((ih (.expr function) startNode s).trans
            (ih (.exprList arguments) _ _)).grows.nodeDatas.length_le
      | ifE condition ifTrue ifFalse =>
        simp only [toCfgNode, hE]
        have hc := ih (.expr condition) startNode s
        set rc := toCfgNode fb r fuel (.expr condition) startNode s with hrc
        have h2 := hc.trans (stepOk_pushNodeEdge rc.2 rc.1 (NodeData.expression e))
        set rs := pushNodeEdge rc.2 rc.1 (NodeData.expression e) with hrs
        have h3 := h2.postUsed (useResultOf_usedOnlyAt r rs.2 rs.1 condition)
          hc.grows.nodeDatas.length_le
        set s2 := useResultOf r rs.2 rs.1 condition with hs2
        have ht := ih (.expr ifTrue) rs.1 s2
        set rt := toCfgNode fb r fuel (.expr ifTrue) rs.1 s2 with hrt
        have h4 := h3.trans ht
        have hf := ih (.expr ifFalse) rs.1 rt.2
        set rf2 := toCfgNode fb r fuel (.expr ifFalse) rs.1 rt.2 with hrf
        have h5 := h4.transAt hf
          (fun hs => lt_of_lt_of_le (h3.flow hs).1 ht.grows.nodeDatas.length_le)
        refine ⟨?_, h5.pathsNew, h5.overNew, h5.usedNew, ?_⟩
        · exact h5.grows.through ⟨ListGrows.append _ _,
            (ListGrows.append _ _).chain (ListGrows.append _ _),
            ListGrows.self _, ListGrows.self _, ListGrows.self _,
            ListGrows.self _, ListGrows.self _, ListGrows.self _⟩
        · intro hs
          constructor
          · show rf2.2.nodeDatas.length < (rf2.2.nodeDatas ++ [NodeData.join e]).length
            simp
          · intro ab hab
            rcases List.mem_append.mp hab with hab1 | hab1
            · rcases List.mem_append.mp hab1 with hab2 | hab2
              · rcases (h5.flow hs).2 ab hab2 with hold | ⟨hle, hlt, hlen⟩
                · exact Or.inl hold
                · refine Or.inr ⟨hle, hlt, ?_⟩
                  exact lt_of_lt_of_le hlen (by simp [pushEdge, pushNode])
              · have hab3 : ab = (rt.1, rf2.2.nodeDatas.length) :=
                  List.mem_singleton.mp hab2
                subst hab3
                refine Or.inr ⟨h5.grows.nodeDatas.length_le,
                  lt_of_lt_of_le (h4.flow hs).1 hf.grows.nodeDatas.length_le, ?_⟩
                show rf2.2.nodeDatas.length < (rf2.2.nodeDatas ++ [NodeData.join e]).length
                simp
            · have hab3 : ab = (rf2.1, rf2.2.nodeDatas.length) :=
                List.mem_singleton.mp hab1
              subst hab3
              refine Or.inr ⟨h5.grows.nodeDatas.length_le, (h5.flow hs).1, ?_⟩
              show rf2.2.nodeDatas.length < (rf2.2.nodeDatas ++ [NodeData.join e]).length
              simp
      | binary op left right =>
        simp only [toCfgNode, hE]
        exact (((ih (.expr left) startNode s).trans
          (ih (.expr right) _ _)).trans
          (stepOk_pushNodeEdge _ _ _)).postUsed
          ((useResultOf_usedOnlyAt r _ _ left).comp
            (useResultOf_usedOnlyAt r _ _ right))
          ((ih (.expr left) startNode s).trans
            (ih (.expr right) _ _)).grows.nodeDatas.length_le
      | unary op value =>
        simp only [toCfgNode, hE]
        exact ((ih (.expr value) startNode s).trans
          (stepOk_pushNodeEdge _ _ _)).postUsed
          (useResultOf_usedOnlyAt r _ _ value)
          (ih (.expr value) startNode s).grows.nodeDatas.length_le
      | error =>
        simp only [toCfgNode, hE]
        exact stepOk_pushNodeEdge s startNode (NodeData.expression e)
      | unit =>
        simp only [toCfgNode, hE]
        exact stepOk_pushNodeEdge s startNode (NodeData.expression e)
      | literal d =>
        simp only [toCfgNode, hE]
        exact stepOk_pushNodeEdge s startNode (NodeData.expression e)
      | aggregate ent fields =>
        simp only [toCfgNode, hE]
        exact ((ih (.identList fields) startNode s).trans
          (stepOk_pushNodeEdge _ _ _)).postUsed
          (foldl_useResultOf_ident_usedOnlyAt fb r _ fields _)
          (ih (.identList fields) startNode s).grows.nodeDatas.length_le
      | sequence first second =>
        simp only [toCfgNode, hE]
        exact ((ih (.expr first) startNode s).trans
          (ih (.expr second) _ _)).trans (stepOk_pushNodeEdge _ _ _)
    | place pl =>
      cases pl with
      | var v =>
        simp only [toCfgNode]
        exact stepOk_self startNode s
      | entity e2 =>
        simp only [toCfgNode]
        exact stepOk_self startNode s
      | temporary e2 =>
        simp only [toCfgNode]
        exact ih (.expr e2) startNode s
      | field owner name =>
        simp only [toCfgNode]
        exact ih (.place owner) startNode s
    | identExpr ie =>
      simp only [toCfgNode]
      exact ih (.expr (fb.identifieds.getD ie 0)) startNode s
    | exprList es =>
      cases es with
      | nil =>
        simp only [toCfgNode]
        exact stepOk_self startNode s
      | cons elem rest =>
        simp only [toCfgNode]
        exact (ih (.expr elem) startNode s).trans (ih (.exprList rest) _ _)
    | identList fs =>
      cases fs with
      | nil =>
        simp only [toCfgNode]
        exact stepOk_self startNode s
      | cons elem rest =>
        simp only [toCfgNode]
        exact (ih (.identExpr elem) startNode s).trans (ih (.identList rest) _ _)
    | opt oe =>
      cases oe with
      | none =>
        simp only [toCfgNode]
        exact stepOk_self startNode s
      | some v =>
        simp only [toCfgNode]
        exact ih (.expr v) startNode s

/-- The `Option` receiver with an absent payload returns the predecessor
unchanged, at every fuel. -/
theorem toCfgNode_opt_none (fb : FnBody) (r : TypeCheckResults) :
    ∀ (fuel : Nat) (startNode : Node) (s : Analysis),
      toCfgNode fb r fuel (.opt none) startNode s = (startNode, s) := by
  intro fuel startNode s
  cases fuel with
  | zero => rfl
  | succ fuel => rfl

/-- Two type-check result tables that agree on access permissions and
whose types drive `use_ty` identically produce identical builds. -/
theorem toCfgNode_congr (fb : FnBody) (r1 r2 : TypeCheckResults)
    (hty : ∀ (s : Analysis) (n : Node) (e : Nat),
      useTy s n (r1.ty e) = useTy s n (r2.ty e))
    (hperm : ∀ e, r1.accessPermissions e = r2.accessPermissions e) :
    ∀ (fuel : Nat) (item : BuildItem) (startNode : Node) (s : Analysis),
      toCfgNode fb r1 fuel item startNode s = toCfgNode fb r2 fuel item startNode s := by
  have hur : ∀ (s : Analysis) (n : Node) (e : Nat),
      useResultOf r1 s n e = useResultOf r2 s n e := fun s n e => hty s n e
  intro fuel
  induction fuel with
  | zero => intro item startNode s; rfl
  | succ fuel ih =>
    intro item startNode s
    cases item with
    | expr e =>
      cases hE : fb.expressions.getD e ExpressionData.error with
      | letE v initializer body =>
        cases initializer with
        | none => simp only [toCfgNode, hE, ih]
        | some init => simp only [toCfgNode, hE, ih, hur]
      | place pl => simp only [toCfgNode, hE, ih, hperm]
      | assignment pl value => simp only [toCfgNode, hE, ih]
      | methodCall m arguments => simp only [toCfgNode, hE, ih, hur]
      | call function arguments => simp only [toCfgNode, hE, ih, hur]
      | ifE condition ifTrue ifFalse => simp only [toCfgNode, hE, ih, hur]
      | binary op left right => simp only [toCfgNode, hE, ih, hur]
      | unary op value => simp only [toCfgNode, hE, ih, hur]
      | error => simp only [toCfgNode, hE]
      | unit => simp only [toCfgNode, hE]
      | literal d => simp only [toCfgNode, hE]
      | aggregate ent fields => simp only [toCfgNode, hE, ih, hur]
      | sequence first second => simp only [toCfgNode, hE, ih]
    | place pl =>
      cases pl with
      | var v => rfl
      | entity e2 => rfl
      | temporary e2 => simp only [toCfgNode, ih]
      | field owner name => simp only [toCfgNode, ih]
    | identExpr ie => simp only [toCfgNode, ih]
    | exprList es =>
      cases es with
      | nil => rfl
      | cons elem rest => simp only [toCfgNode, ih]
    | identList fs =>
      cases fs with
      | nil => rfl
      | cons elem rest => simp only [toCfgNode, ih]
    | opt oe =>
      cases oe with
      | none => rfl
      | some v => simp only [toCfgNode, ih]

/-! ### Good-state (forward-edge) preservation -/

theorem goodState_stepOk {startNode : Node} {s : Analysis} {res : Node × Analysis}
    (hgood : GoodState s) (hstart : startNode < s.nodeDatas.length)
    (h : StepOk startNode s res) : GoodState res.2 := by
  intro ab hab
  rcases (h.flow hstart).2 ab hab with hold | hnew
  · obtain ⟨ha, hb⟩ := hgood ab hold
    exact ⟨ha, lt_of_lt_of_le hb h.grows.nodeDatas.length_le⟩
  · exact ⟨hnew.2.1, hnew.2.2⟩

theorem goodState_toCfgNode (fb : FnBody) (r : TypeCheckResults)
    {s : Analysis} {startNode : Node}
    (hgood : GoodState s) (hstart : startNode < s.nodeDatas.length)
    (fuel : Nat) (item : BuildItem) :
    GoodState (toCfgNode fb r fuel item startNode s).2 :=
  goodState_stepOk hgood hstart (stepOk_toCfgNode fb r fuel item startNode s)

theorem goodState_pushNodeEdge {s : Analysis} {prev : Node} (d : NodeData)
    (hgood : GoodState s) (hprev : prev < s.nodeDatas.length) :
    GoodState (pushNodeEdge s prev d).2 :=
  goodState_stepOk hgood hprev (stepOk_pushNodeEdge s prev d)

theorem goodState_usedOnlyAt {s s2 : Analysis} {n : Node}
    (h : UsedOnlyAt s s2 n) (hgood : GoodState s) : GoodState s2 := by
  intro ab hab
  rw [h.2.1] at hab
  rw [h.1]
  exact hgood ab hab

/-- A relation contained in `<` on `Nat` has no cycles. -/
theorem transGen_irrefl_of_lt {rel : Nat → Nat → Prop}
    (hr : ∀ a b, rel a b → a < b) : ∀ n, ¬ Relation.TransGen rel n n := by
  have haux : ∀ {a b : Nat}, Relation.TransGen rel a b → a < b := by
    intro a b h
    induction h with
    | single h1 => exact hr _ _ h1
    | tail _ h2 ih => exact lt_trans ih (hr _ _ h2)
  intro n hn
  exact absurd (haux hn) (lt_irrefl n)

/-! ### Concrete fixtures (used by witnesses and counterexamples) -/

/-- Type-check results giving every expression the fully resolved
generic-free type and access permission 7. -/
def rSimple : TypeCheckResults :=
  { ty := fun _ => Ty.mk 0 (some []), accessPermissions := fun _ => 7 }

/-- An analysis holding just one entry node, the build's predecessor. -/
def sInit : Analysis := { Analysis.empty with nodeDatas := [NodeData.expression 99] }

/-- Program `x` — a single read of variable 0 (expression 0). -/
def fbRead : FnBody :=
  { expressions := [.place (Place.var 0)], identifieds := [], names := [] }

/-- Program `x = 1` — expression 1 assigns literal expression 0 into
variable 0. -/
def fbAssign : FnBody :=
  { expressions := [.literal 1, .assignment (Place.var 0) 0]
  , identifieds := [], names := [] }

/-- Program `obj.f = 1` — expression 1 assigns literal expression 0 into
field 0 (text 4) of variable 3. -/
def fbAssignField : FnBody :=
  { expressions := [.literal 1, .assignment (Place.field (Place.var 3) 0) 0]
  , identifieds := [], names := [4] }

/-- Program `if c { 1 } else { 2 }` — expression 3 branches on literal
expressions. -/
def fbIf : FnBody :=
  { expressions := [.literal 0, .literal 1, .literal 2, .ifE 0 1 2]
  , identifieds := [], names := [] }

/-- Program `let x; 5` — expression 1 is a let with absent initializer
whose body is literal expression 0. -/
def fbLetNone : FnBody :=
  { expressions := [.literal 5, .letE 0 none 0], identifieds := [], names := [] }

/-- Program `let t = a.b; t` — expression 0 reads field b (identifier 0,
text 5) of variable 10; expression 2 binds it to variable 1 and its body,
expression 1, reads variable 1. -/
def fb6 : FnBody :=
  { expressions :=
      [ .place (Place.field (Place.var 10) 0)
      , .place (Place.var 1)
      , .letE 1 (some 0) 1 ]
  , identifieds := []
  , names := [5] }

/-- Type-check results for `fb6`: resolved generic-free types, access
permission = the expression index. -/
def r6 : TypeCheckResults :=
  { ty := fun _ => Ty.mk 0 (some []), accessPermissions := fun e => e }

/-- `Pair<X, Y>` — a fully resolved type of nesting depth 1 with two
generic arguments. -/
def tyPair : Ty := Ty.mk 0 (some [Ty.mk 1 (some []), Ty.mk 2 (some [])])

/-- `Outer<Inner<T>>` — a fully resolved linear chain of nesting
depth 2. -/
def tyChain : Ty := Ty.mk 0 (some [Ty.mk 1 (some [Ty.mk 2 (some [])])])

/-! ### C1 -/

/-- C1 (claim as stated is false): the claim demands that an
`Overwritten(P, n)` fact be emitted for every interned ownerless path P,
but `generate_assignment_facts` runs only in the `Assignment` arm: the
program `x` interns the ownerless path of `x` for a plain read and the
build emits no `Overwritten` fact at all. -/
theorem c1_counterexample :
    (toCfgNode fbRead rSimple 5 (.expr 0) 0 sInit).2.pathDatas = [PathData.var 0]
    ∧ (PathData.var 0).owner = none
    ∧ (toCfgNode fbRead rSimple 5 (.expr 0) 0 sInit).2.overwritten = [] :=
  ⟨rfl, rfl, rfl⟩

/-- C1 (amended): (A) every `Overwritten(P, n)` fact a build emits names
a path with no owner (starting from any state whose overwritten facts
already do); and (B) every evaluation of an Assignment expression ends in
`generate_assignment_facts` on the target path interned in the
intermediate state: when that path has no owner it appends exactly one
`Overwritten(path, self_node)` fact and no `Traverse`; when it has owner
`o` it appends exactly one `Traverse(o, self_node)` fact — naming the
immediate owner — and no `Overwritten`.  (The `precise`/`owner` helpers
are modelled from the spec; see `PathData.precise`.) -/
theorem c1_amended (fb : FnBody) (r : TypeCheckResults) :
    (∀ (fuel : Nat) (item : BuildItem) (startNode : Node) (s : Analysis),
      (∀ pn ∈ s.overwritten, ∃ pd, s.pathDatas[pn.1]? = some pd ∧ pd.owner = none) →
      ∀ pn ∈ (toCfgNode fb r fuel item startNode s).2.overwritten,
        ∃ pd, (toCfgNode fb r fuel item startNode s).2.pathDatas[pn.1]? = some pd
          ∧ pd.owner = none)
    ∧ (∀ (fuel : Nat) (startNode : Node) (s : Analysis) (e : Nat) (pl : Place) (value : Nat),
        fb.expressions.getD e ExpressionData.error = ExpressionData.assignment pl value →
        ∃ (selfNode : Node) (sMid : Analysis) (path : Path) (pd : PathData),
          sMid.pathDatas[path]? = some pd
          ∧ toCfgNode fb r (fuel + 1) (.expr e) startNode s =
              (selfNode, generateAssignmentFacts sMid path selfNode)
          ∧ (pd.owner = none →
              (generateAssignmentFacts sMid path selfNode).overwritten =
                sMid.overwritten ++ [(path, selfNode)]
              ∧ (generateAssignmentFacts sMid path selfNode).traverse = sMid.traverse)
          ∧ (∀ o, pd.owner = some o →
              (generateAssignmentFacts sMid path selfNode).overwritten = sMid.overwritten
              ∧ (generateAssignmentFacts sMid path selfNode).traverse =
                  sMid.traverse ++ [(o, selfNode)])) := by
  constructor
  · intro fuel item startNode s hinv pn hpn
    have h := stepOk_toCfgNode fb r fuel item startNode s
    rcases h.overNew pn hpn with hold | hnew
    · obtain ⟨pd, hg, ho⟩ := hinv pn hold
      exact ⟨pd, h.grows.pathDatas.getElem? hg, ho⟩
    · exact hnew
  · intro fuel startNode s e pl value he
    simp only [toCfgNode, he]
    set rp := toCfgNode fb r fuel (.place pl) startNode s with hrp
    set rv := toCfgNode fb r fuel (.expr value) rp.1 rp.2 with hrv
    set rs := pushNodeEdge rv.2 rv.1 (NodeData.expression e) with hrs
    obtain ⟨-, -, -, -, -, -, -, -, -, pd, hpd, -⟩ := pathOfPlace_spec fb pl rs.2
    obtain ⟨-, -, -, -, -, -, g7, g8⟩ :=
      generateAssignmentFacts_spec (pathOfPlace fb pl rs.2).2 (pathOfPlace fb pl rs.2).1 rs.1 pd hpd
    exact ⟨rs.1, (pathOfPlace fb pl rs.2).2, (pathOfPlace fb pl rs.2).1, pd, hpd, rfl, g7, g8⟩

/-- C1 witness: for the program `x = 1`, part (A) at the concrete
emitted fact `(0, 2)` yields that its path is ownerless. -/
theorem c1_amended_witness :
    ∃ pd, (toCfgNode fbAssign rSimple 5 (BuildItem.expr 1) 0 sInit).2.pathDatas[(0 : Nat)]? = some pd
      ∧ pd.owner = none := by
  have h := (c1_amended fbAssign rSimple).1 5 (.expr 1) 0 sInit
    (fun pn hpn => absurd hpn (List.not_mem_nil pn)) (0, 2) (by decide)
  exact h

/-! ### C2 -/

/-- C2: path interning is canonical.  With `(p, s1) := createPath s pd`
and a later intern `(q, s2) := createPath sx qd` from any state whose
table extends `s1`'s: re-interning `pd` returns the same identity and
state; the identity keeps resolving to `pd` in every later table;
interning an equal descriptor later returns the same identity with no
state change, a distinct descriptor never returns `p`; a fresh descriptor
receives the next sequential identity and appends the owner pair exactly
once (never on the occupied path, which returns the state unchanged). -/
theorem c2_create_path_canonical
    (s sx : Analysis) (pd qd : PathData) (p q : Path) (s1 s2 : Analysis)
    (h1 : createPath s pd = (p, s1))
    (hext : ListGrows s1.pathDatas sx.pathDatas)
    (h2 : createPath sx qd = (q, s2)) :
    createPath s1 pd = (p, s1)
    ∧ s1.pathDatas[p]? = some pd
    ∧ sx.pathDatas[p]? = some pd
    ∧ s2.pathDatas[p]? = some pd
    ∧ (qd = pd → q = p ∧ s2 = sx)
    ∧ (qd ≠ pd → q ≠ p)
    ∧ (pd ∈ s.pathDatas → s1 = s)
    ∧ (pd ∉ s.pathDatas →
        p = s.pathDatas.length
        ∧ s1.pathDatas = s.pathDatas ++ [pd]
        ∧ (∀ o, pd.owner = some o → s1.ownerPaths = s.ownerPaths ++ [(o, p)])
        ∧ (pd.owner = none → s1.ownerPaths = s.ownerPaths)) := by
  have hfp1 : findPath s1.pathDatas pd = some p := by
    have h := createPath_findPath s pd
    rw [h1] at h
    exact h
  have hget1 : s1.pathDatas[p]? = some pd := findPath_get hfp1
  have hgetx : sx.pathDatas[p]? = some pd := hext.getElem? hget1
  have hfpx : findPath sx.pathDatas pd = some p := by
    obtain ⟨t, ht⟩ := hext
    rw [ht]
    exact findPath_append_some t hfp1
  have hgrow2 : ListGrows sx.pathDatas s2.pathDatas := by
    have h := (createPath_spec sx qd).2.2.2.2.2.2.1
    rw [h2] at h
    exact h
  have hgets2 : s2.pathDatas[p]? = some pd := hgrow2.getElem? hgetx
  refine ⟨createPath_occupied hfp1, hget1, hgetx, hgets2, ?_, ?_, ?_, ?_⟩
  · intro hqd
    subst hqd
    have h := createPath_occupied hfpx
    rw [h2] at h
    exact ⟨congrArg Prod.fst h, congrArg Prod.snd h⟩
  · intro hqd hqp
    have hq : s2.pathDatas[q]? = some qd := by
      have h := createPath_found sx qd
      rw [h2] at h
      exact h
    rw [hqp, hgets2] at hq
    exact hqd (Option.some.inj hq).symm
  · intro hmem
    obtain ⟨i, hfp⟩ : ∃ i, findPath s.pathDatas pd = some i := by
      cases hf : findPath s.pathDatas pd with
      | some i => exact ⟨i, rfl⟩
      | none => exact absurd hmem (findPath_eq_none.mp hf)
    have h := createPath_occupied hfp
    rw [h1] at h
    exact congrArg Prod.snd h
  · intro hnm
    obtain ⟨ha, hb, hc, hd⟩ := createPath_vacant hnm
    rw [h1] at ha hb hc hd
    have ha2 : p = s.pathDatas.length := ha
    have hb2 : s1.pathDatas = s.pathDatas ++ [pd] := hb
    have hd2 : pd.owner = none → s1.ownerPaths = s.ownerPaths := hd
    refine ⟨ha2, hb2, fun o ho => ?_, hd2⟩
    rw [ha2]
    exact hc o ho

/-- C2 witness: interning `Field{owner: 0, name: 7}` into the empty
analysis assigns identity 0 (the next sequential one), appends the
descriptor, and records the owner pair once. -/
theorem c2_create_path_canonical_witness :
    (createPath Analysis.empty (PathData.field 0 7)).1 = Analysis.empty.pathDatas.length
    ∧ (createPath Analysis.empty (PathData.field 0 7)).2.pathDatas =
        Analysis.empty.pathDatas ++ [PathData.field 0 7]
    ∧ (createPath Analysis.empty (PathData.field 0 7)).2.ownerPaths =
        Analysis.empty.ownerPaths ++ [(0, (createPath Analysis.empty (PathData.field 0 7)).1)] := by
  have h := c2_create_path_canonical Analysis.empty
    (createPath Analysis.empty (PathData.field 0 7)).2
    (PathData.field 0 7) (PathData.var 3)
    (createPath Analysis.empty (PathData.field 0 7)).1
    (createPath (createPath Analysis.empty (PathData.field 0 7)).2 (PathData.var 3)).1
    (createPath Analysis.empty (PathData.field 0 7)).2
    (createPath (createPath Analysis.empty (PathData.field 0 7)).2 (PathData.var 3)).2
    rfl (ListGrows.self _) rfl
  obtain ⟨ha, hb, hc, -⟩ := h.2.2.2.2.2.2.2 (by decide)
  exact ⟨ha, hb, hc 0 rfl⟩

/-! ### C3 -/

/-- C3 (claim as stated is false): `Pair<X, Y>` resolves at every level
and has generic nesting depth 1, yet `use_ty` appends 3 `Used` facts, not
D + 1 = 2 — the fact count is one per type layer, and only for linear
chains does it equal depth + 1. -/
theorem c3_counterexample :
    ¬ (∀ (s : Analysis) (n : Node) (t : Ty), tyAllResolved t = true →
        (useTy s n t).used.length = s.used.length + (tyDepth t + 1)) := by
  intro h
  have h2 := h Analysis.empty 0 tyPair (by decide)
  exact absurd h2 (by decide)

/-- C3 (amended): every `use_ty` call at node N appends exactly one
`Used` fact per layer of the resolvable prefix of the type (`tyLayers`),
all tagged with N; for a type that resolves at every level with at most
one generic argument per level (a linear chain) that count is exactly
D + 1 where D is the generic nesting depth; and a type whose base fails
to resolve contributes exactly the one fact for its own permission and
none below. -/
theorem c3_layering_amended :
    (∀ (s : Analysis) (n : Node) (t : Ty),
      ∃ l, (useTy s n t).used = s.used ++ l ∧ l.length = tyLayers t ∧ ∀ u ∈ l, u.2 = n)
    ∧ (∀ t : Ty, tyLinearResolved t = true → tyLayers t = tyDepth t + 1)
    ∧ (∀ (s : Analysis) (n : Node) (p : Perm),
        useTy s n (Ty.mk p none) = { s with used := s.used ++ [(p, n)] }) := by
  refine ⟨?_, tyLinearResolved_layers, fun s n p => rfl⟩
  intro s n t
  obtain ⟨-, -, -, -, -, -, -, l, hl, htag⟩ := useTy_usedOnlyAt t s n
  refine ⟨l, hl, ?_, htag⟩
  have hlen := useTy_used_length t s n
  rw [hl] at hlen
  simp only [List.length_append] at hlen
  omega

/-- C3 witness: the linear chain `Outer<Inner<T>>` (depth 2) has exactly
3 = D + 1 layers. -/
theorem c3_layering_amended_witness :
    tyLinearResolved tyChain = true ∧ tyLayers tyChain = tyDepth tyChain + 1 :=
  ⟨by decide, c3_layering_amended.2.1 tyChain (by decide)⟩

/-! ### C4 -/

/-- C4: unresolved-type handling is silent and local.  A `use_ty` call on
a type whose base is unresolved appends exactly the one `Used` fact for
that type's own permission and returns normally (the embedding is total:
the `Err` arm of `shallow_resolve_data` does nothing).  Globally, the
whole build is unchanged when every unresolved base is replaced by a
resolved base with no generic arguments (`Ty.canon`) — i.e. all nodes,
edges and facts are exactly those produced had each unresolved sub-tree
been absent. -/
theorem c4_unresolved_silent :
    (∀ (s : Analysis) (n : Node) (p : Perm),
      useTy s n (Ty.mk p none) = { s with used := s.used ++ [(p, n)] })
    ∧ (∀ (fb : FnBody) (r : TypeCheckResults) (fuel : Nat) (item : BuildItem)
        (startNode : Node) (s : Analysis),
        toCfgNode fb (canonResults r) fuel item startNode s =
          toCfgNode fb r fuel item startNode s) := by
  constructor
  · intro s n p
    rfl
  · intro fb r fuel item startNode s
    exact toCfgNode_congr fb (canonResults r) r
      (fun s2 n e => useTy_canon (r.ty e) s2 n) (fun _ => rfl) fuel item startNode s

/-! ### C5 -/

/-- C5: shape of the `If` arm.  With the intermediate results named by
their defining equations — condition built from the predecessor, one edge
from the condition's node to the fresh self node, both branches built
from that self node — the build allocates a synthetic join node after the
branches, adds exactly one edge from each branch's terminal node to it,
returns it, and the join node has exactly two incoming edges in the final
edge relation. -/
theorem c5_if_join_fan_in (fb : FnBody) (r : TypeCheckResults)
    (fuel : Nat) (startNode : Node) (s : Analysis)
    (e condition ifTrue ifFalse : Nat)
    (hgood : GoodState s) (hstart : startNode < s.nodeDatas.length)
    (he : fb.expressions.getD e ExpressionData.error =
      ExpressionData.ifE condition ifTrue ifFalse) :
    ∀ (rc rs : Node × Analysis) (s2 : Analysis) (rt rf2 : Node × Analysis),
      rc = toCfgNode fb r fuel (.expr condition) startNode s →
      rs = pushNodeEdge rc.2 rc.1 (NodeData.expression e) →
      s2 = useResultOf r rs.2 rs.1 condition →
      rt = toCfgNode fb r fuel (.expr ifTrue) rs.1 s2 →
      rf2 = toCfgNode fb r fuel (.expr ifFalse) rs.1 rt.2 →
      toCfgNode fb r (fuel + 1) (.expr e) startNode s =
        ((pushNode rf2.2 (NodeData.join e)).1,
          pushEdge (pushEdge (pushNode rf2.2 (NodeData.join e)).2 rt.1
            (pushNode rf2.2 (NodeData.join e)).1) rf2.1 (pushNode rf2.2 (NodeData.join e)).1)
      ∧ (toCfgNode fb r (fuel + 1) (.expr e) startNode s).2.nodeDatas[
          (toCfgNode fb r (fuel + 1) (.expr e) startNode s).1]? = some (NodeData.join e)
      ∧ ((toCfgNode fb r (fuel + 1) (.expr e) startNode s).2.cfgEdges.countP
          (fun ab => ab.2 == (toCfgNode fb r (fuel + 1) (.expr e) startNode s).1)) = 2
      ∧ (rt.1, (toCfgNode fb r (fuel + 1) (.expr e) startNode s).1) ∈
          (toCfgNode fb r (fuel + 1) (.expr e) startNode s).2.cfgEdges
      ∧ (rf2.1, (toCfgNode fb r (fuel + 1) (.expr e) startNode s).1) ∈
          (toCfgNode fb r (fuel + 1) (.expr e) startNode s).2.cfgEdges := by
  intro rc rs s2 rt rf2 hrc hrs hs2 hrt hrf
  have hunfold : toCfgNode fb r (fuel + 1) (.expr e) startNode s =
      ((pushNode rf2.2 (NodeData.join e)).1,
        pushEdge (pushEdge (pushNode rf2.2 (NodeData.join e)).2 rt.1
          (pushNode rf2.2 (NodeData.join e)).1) rf2.1 (pushNode rf2.2 (NodeData.join e)).1) := by
    subst hrf hrt hs2 hrs hrc
    simp only [toCfgNode, he]
  have hc := stepOk_toCfgNode fb r fuel (.expr condition) startNode s
  rw [← hrc] at hc
  have g1 : GoodState rc.2 := goodState_stepOk hgood hstart hc
  have hrc1 : rc.1 < rc.2.nodeDatas.length := (hc.flow hstart).1
  have g2 : GoodState rs.2 := by
    rw [hrs]
    exact goodState_pushNodeEdge (NodeData.expression e) g1 hrc1
  have hlen_s2 : s2.nodeDatas = rs.2.nodeDatas := by
    rw [hs2]
    exact (useResultOf_usedOnlyAt r rs.2 rs.1 condition).1
  have g3 : GoodState s2 := by
    rw [hs2]
    exact goodState_usedOnlyAt (useResultOf_usedOnlyAt r rs.2 rs.1 condition) g2
  have hrs1 : rs.1 < s2.nodeDatas.length := by
    rw [hlen_s2, hrs]
    show rc.2.nodeDatas.length < (rc.2.nodeDatas ++ [NodeData.expression e]).length
    simp
  have ht := stepOk_toCfgNode fb r fuel (.expr ifTrue) rs.1 s2
  rw [← hrt] at ht
  have g4 : GoodState rt.2 := goodState_stepOk g3 hrs1 ht
  have hrs1t : rs.1 < rt.2.nodeDatas.length :=
    lt_of_lt_of_le hrs1 ht.grows.nodeDatas.length_le
  have hf := stepOk_toCfgNode fb r fuel (.expr ifFalse) rs.1 rt.2
  rw [← hrf] at hf
  have g5 : GoodState rf2.2 := goodState_stepOk g4 hrs1t hf
  refine ⟨hunfold, ?_, ?_, ?_, ?_⟩
  · rw [hunfold]
    exact List.getElem?_concat_length rf2.2.nodeDatas (NodeData.join e)
  · rw [hunfold]
    show List.countP (fun ab => ab.2 == rf2.2.nodeDatas.length)
        ((rf2.2.cfgEdges ++ [(rt.1, rf2.2.nodeDatas.length)])
          ++ [(rf2.1, rf2.2.nodeDatas.length)]) = 2
    rw [List.countP_append, List.countP_append]
    have hz : List.countP (fun ab => ab.2 == rf2.2.nodeDatas.length) rf2.2.cfgEdges = 0 := by
      rw [List.countP_eq_zero]
      intro ab hab
      have h := (g5 ab hab).2
      show ¬(ab.2 == rf2.2.nodeDatas.length) = true
      simp only [beq_iff_eq]
      exact Nat.ne_of_lt h
    have ho1 : List.countP (fun ab => ab.2 == rf2.2.nodeDatas.length)
        [(rt.1, rf2.2.nodeDatas.length)] = 1 := by simp
    have ho2 : List.countP (fun ab => ab.2 == rf2.2.nodeDatas.length)
        [(rf2.1, rf2.2.nodeDatas.length)] = 1 := by simp
    rw [hz, ho1, ho2]
  · rw [hunfold]
    show (rt.1, rf2.2.nodeDatas.length) ∈
        (rf2.2.cfgEdges ++ [(rt.1, rf2.2.nodeDatas.length)])
          ++ [(rf2.1, rf2.2.nodeDatas.length)]
    exact List.mem_append_left _ (List.mem_append_right _ (List.mem_singleton.mpr rfl))
  · rw [hunfold]
    show (rf2.1, rf2.2.nodeDatas.length) ∈
        (rf2.2.cfgEdges ++ [(rt.1, rf2.2.nodeDatas.length)])
          ++ [(rf2.1, rf2.2.nodeDatas.length)]
    exact List.mem_append_right _ (List.mem_singleton.mpr rfl)

/-- C5 witness: for `if c { 1 } else { 2 }` the returned join node has
exactly two incoming edges. -/
theorem c5_if_join_fan_in_witness :
    ((toCfgNode fbIf rSimple 10 (BuildItem.expr 3) 0 sInit).2.cfgEdges.countP
      (fun ab => ab.2 == (toCfgNode fbIf rSimple 10 (BuildItem.expr 3) 0 sInit).1)) = 2 := by
  have h := c5_if_join_fan_in fbIf rSimple 9 0 sInit 3 0 1 2
    (fun ab hab => absurd hab (List.not_mem_nil ab)) (by decide) rfl
    _ _ _ _ _ rfl rfl rfl rfl rfl
  exact h.2.2.1

/-! ### C6 -/

/-- C6 (claim as stated is false): for `let t = a.b; t` the claim expects
exactly one `Traverse(path-of-a, node-of-let)` fact and one `Overwritten`
fact for the bound variable, but the `Let` arm never calls
`generate_assignment_facts`: the build emits no `Traverse` and no
`Overwritten` fact at all. -/
theorem c6_counterexample :
    (toCfgNode fb6 r6 10 (.expr 2) 0 sInit).2.traverse = []
    ∧ (toCfgNode fb6 r6 10 (.expr 2) 0 sInit).2.overwritten = [] :=
  ⟨rfl, rfl⟩

/-- C6 (amended): for `let t = a.b; t` (built from predecessor node 0 of
`sInit`) the build interns the paths of `a`, `a.b` (owned by `a`) and `t`,
emits `Access` facts for the read of `a.b` at the initializer's node and
for the read of `t` at the body's node, a `Used` fact for the
initializer's type at the let's own node, and no `Traverse` or
`Overwritten` facts; the nodes form the chain
initializer → let → body. -/
theorem c6_let_field_read_amended :
    (toCfgNode fb6 r6 10 (.expr 2) 0 sInit).2.nodeDatas =
      [NodeData.expression 99, NodeData.expression 0, NodeData.expression 2,
        NodeData.expression 1]
    ∧ (toCfgNode fb6 r6 10 (.expr 2) 0 sInit).2.cfgEdges = [(0, 1), (1, 2), (2, 3)]
    ∧ (toCfgNode fb6 r6 10 (.expr 2) 0 sInit).2.pathDatas =
        [PathData.var 10, PathData.field 0 5, PathData.var 1]
    ∧ (toCfgNode fb6 r6 10 (.expr 2) 0 sInit).2.ownerPaths = [(0, 1)]
    ∧ (toCfgNode fb6 r6 10 (.expr 2) 0 sInit).2.accesses = [(0, 1, 1), (1, 2, 3)]
    ∧ (toCfgNode fb6 r6 10 (.expr 2) 0 sInit).2.overwritten = []
    ∧ (toCfgNode fb6 r6 10 (.expr 2) 0 sInit).2.traverse = []
    ∧ (toCfgNode fb6 r6 10 (.expr 2) 0 sInit).2.used = [(0, 2)] :=
  ⟨rfl, rfl, rfl, rfl, rfl, rfl, rfl, rfl⟩

/-! ### C7 -/

/-- C7: place-to-path conversion.  A variable or entity place interns
directly as an ownerless path and contributes no control-flow nodes; a
temporary place builds control flow for its underlying expression (in
`to_cfg_node`) and interns an ownerless `Temporary` path (in `path`); a
field place's control flow is its owner's, and its path interns the owner
place's path first and then `Field{owner, name}` carrying that owner; and
the `path` conversion itself never touches the node or edge stores. -/
theorem c7_place_to_path (fb : FnBody) (r : TypeCheckResults) :
    (∀ (v : Nat) (s : Analysis),
      pathOfPlace fb (.var v) s = createPath s (.var v)
      ∧ (PathData.var v).owner = none)
    ∧ (∀ (e2 : Nat) (s : Analysis),
        pathOfPlace fb (.entity e2) s = createPath s (.entity e2)
        ∧ (PathData.entity e2).owner = none)
    ∧ (∀ (fuel : Nat) (startNode : Node) (s : Analysis) (v : Nat),
        toCfgNode fb r (fuel + 1) (.place (.var v)) startNode s = (startNode, s))
    ∧ (∀ (fuel : Nat) (startNode : Node) (s : Analysis) (e2 : Nat),
        toCfgNode fb r (fuel + 1) (.place (.entity e2)) startNode s = (startNode, s))
    ∧ (∀ (fuel : Nat) (startNode : Node) (s : Analysis) (e2 : Nat),
        toCfgNode fb r (fuel + 1) (.place (.temporary e2)) startNode s =
          toCfgNode fb r fuel (.expr e2) startNode s)
    ∧ (∀ (e2 : Nat) (s : Analysis),
        pathOfPlace fb (.temporary e2) s = createPath s (.temporary e2)
        ∧ (PathData.temporary e2).owner = none)
    ∧ (∀ (fuel : Nat) (startNode : Node) (s : Analysis) (owner : Place) (name : Nat),
        toCfgNode fb r (fuel + 1) (.place (.field owner name)) startNode s =
          toCfgNode fb r fuel (.place owner) startNode s)
    ∧ (∀ (owner : Place) (name : Nat) (s : Analysis),
        pathOfPlace fb (.field owner name) s =
          createPath (pathOfPlace fb owner s).2
            (.field (pathOfPlace fb owner s).1 (fb.names.getD name 0))
        ∧ (PathData.field (pathOfPlace fb owner s).1 (fb.names.getD name 0)).owner =
            some (pathOfPlace fb owner s).1)
    ∧ (∀ (pl : Place) (s : Analysis),
        (pathOfPlace fb pl s).2.nodeDatas = s.nodeDatas
        ∧ (pathOfPlace fb pl s).2.cfgEdges = s.cfgEdges) := by
  refine ⟨fun v s => ⟨rfl, rfl⟩, fun e2 s => ⟨rfl, rfl⟩, fun _ _ _ _ => rfl,
    fun _ _ _ _ => rfl, fun _ _ _ _ => rfl, fun e2 s => ⟨rfl, rfl⟩,
    fun _ _ _ _ _ => rfl, fun owner name s => ⟨rfl, rfl⟩, fun pl s => ?_⟩
  obtain ⟨h1, h2, -⟩ := pathOfPlace_spec fb pl s
  exact ⟨h1, h2⟩

/-! ### C8 -/

/-- C8: the control-flow graph is acyclic — starting from a state whose
edges are all forward (earlier node to later node) with a valid
predecessor, every edge of the completed build goes from an
earlier-allocated to a later-allocated node, and the edge relation admits
no directed cycle. -/
theorem c8_acyclic (fb : FnBody) (r : TypeCheckResults)
    (fuel : Nat) (item : BuildItem) (startNode : Node) (s : Analysis)
    (hgood : GoodState s) (hstart : startNode < s.nodeDatas.length) :
    GoodState (toCfgNode fb r fuel item startNode s).2
    ∧ (∀ ab ∈ (toCfgNode fb r fuel item startNode s).2.cfgEdges, ab.1 < ab.2)
    ∧ (∀ n, ¬ Relation.TransGen
        (fun a b => (a, b) ∈ (toCfgNode fb r fuel item startNode s).2.cfgEdges) n n) := by
  have hg := goodState_toCfgNode fb r hgood hstart fuel item
  exact ⟨hg, fun ab hab => (hg ab hab).1,
    transGen_irrefl_of_lt (fun a b hab => (hg (a, b) hab).1)⟩

/-- C8 witness: the CFG of `if c { 1 } else { 2 }` has no cycle through
node 0. -/
theorem c8_acyclic_witness :
    ¬ Relation.TransGen
      (fun a b => (a, b) ∈ (toCfgNode fbIf rSimple 10 (BuildItem.expr 3) 0 sInit).2.cfgEdges)
      0 0 :=
  (c8_acyclic fbIf rSimple 10 (.expr 3) 0 sInit
    (fun ab hab => absurd hab (List.not_mem_nil ab)) (by decide)).2.2 0

/-! ### C9 -/

/-- C9: the `Index` path variant is never constructed — starting from any
state whose path table has no `Index` entry, the completed build's path
table has none, and hence every path identity referenced by the
owner-path index or by any fact relation resolves to a non-`Index`
descriptor. -/
theorem c9_no_index_path (fb : FnBody) (r : TypeCheckResults)
    (fuel : Nat) (item : BuildItem) (startNode : Node) (s : Analysis)
    (h : ∀ pd ∈ s.pathDatas, pd.isIndex = false) :
    (∀ pd ∈ (toCfgNode fb r fuel item startNode s).2.pathDatas, pd.isIndex = false)
    ∧ (∀ op ∈ (toCfgNode fb r fuel item startNode s).2.ownerPaths,
        (∀ pd, (toCfgNode fb r fuel item startNode s).2.pathDatas[op.1]? = some pd →
          pd.isIndex = false)
        ∧ (∀ pd, (toCfgNode fb r fuel item startNode s).2.pathDatas[op.2]? = some pd →
          pd.isIndex = false))
    ∧ (∀ a ∈ (toCfgNode fb r fuel item startNode s).2.accesses,
        ∀ pd, (toCfgNode fb r fuel item startNode s).2.pathDatas[a.2.1]? = some pd →
          pd.isIndex = false)
    ∧ (∀ pn ∈ (toCfgNode fb r fuel item startNode s).2.overwritten,
        ∀ pd, (toCfgNode fb r fuel item startNode s).2.pathDatas[pn.1]? = some pd →
          pd.isIndex = false)
    ∧ (∀ pn ∈ (toCfgNode fb r fuel item startNode s).2.traverse,
        ∀ pd, (toCfgNode fb r fuel item startNode s).2.pathDatas[pn.1]? = some pd →
          pd.isIndex = false) := by
  have hstep := stepOk_toCfgNode fb r fuel item startNode s
  have hmain : ∀ pd ∈ (toCfgNode fb r fuel item startNode s).2.pathDatas,
      pd.isIndex = false := by
    intro pd hpd
    rcases hstep.pathsNew pd hpd with hold | hnew
    · exact h pd hold
    · exact hnew
  exact ⟨hmain,
    fun op _ => ⟨fun pd hg => hmain pd (List.getElem?_mem hg),
      fun pd hg => hmain pd (List.getElem?_mem hg)⟩,
    fun a _ pd hg => hmain pd (List.getElem?_mem hg),
    fun pn _ pd hg => hmain pd (List.getElem?_mem hg),
    fun pn _ pd hg => hmain pd (List.getElem?_mem hg)⟩

/-- C9 witness: the field path interned for `let t = a.b; t` is not an
`Index` path. -/
theorem c9_no_index_path_witness : (PathData.field 0 5).isIndex = false :=
  (c9_no_index_path fb6 r6 10 (.expr 2) 0 sInit
    (fun pd hpd => absurd hpd (List.not_mem_nil pd))).1
    (PathData.field 0 5) (by decide)

/-! ### C10 -/

/-- C10: a `Let` with absent initializer still allocates the let's own
node — the next fresh node — linked by a single edge directly from the
supplied predecessor (the absent initializer contributes no nodes or
edges), emits no `Used` fact at that node, and builds the body from the
let's node. -/
theorem c10_let_absent_initializer (fb : FnBody) (r : TypeCheckResults)
    (fuel : Nat) (startNode : Node) (s : Analysis) (e v body : Nat)
    (he : fb.expressions.getD e ExpressionData.error = ExpressionData.letE v none body) :
    toCfgNode fb r (fuel + 1) (.expr e) startNode s =
      toCfgNode fb r fuel (.expr body) s.nodeDatas.length
        { s with nodeDatas := s.nodeDatas ++ [NodeData.expression e],
                 cfgEdges := s.cfgEdges ++ [(startNode, s.nodeDatas.length)] }
    ∧ (∀ u ∈ (toCfgNode fb r (fuel + 1) (.expr e) startNode s).2.used,
        u ∈ s.used ∨ s.nodeDatas.length < u.2)
    ∧ (toCfgNode fb r (fuel + 1) (.expr e) startNode s).2.nodeDatas[s.nodeDatas.length]? =
        some (NodeData.expression e) := by
  have hunfold : toCfgNode fb r (fuel + 1) (.expr e) startNode s =
      toCfgNode fb r fuel (.expr body) s.nodeDatas.length
        { s with nodeDatas := s.nodeDatas ++ [NodeData.expression e],
                 cfgEdges := s.cfgEdges ++ [(startNode, s.nodeDatas.length)] } := by
    simp only [toCfgNode, he, toCfgNode_opt_none]
    rfl
  have hstep := stepOk_toCfgNode fb r fuel (.expr body) s.nodeDatas.length
    { s with nodeDatas := s.nodeDatas ++ [NodeData.expression e],
             cfgEdges := s.cfgEdges ++ [(startNode, s.nodeDatas.length)] }
  refine ⟨hunfold, ?_, ?_⟩
  · intro u hu
    rw [hunfold] at hu
    rcases hstep.usedNew u hu with hold | hge
    · exact Or.inl hold
    · right
      have hge2 : s.nodeDatas.length + 1 ≤ u.2 := by simpa using hge
      omega
  · rw [hunfold]
    apply hstep.grows.nodeDatas.getElem?
    exact List.getElem?_concat_length s.nodeDatas (NodeData.expression e)

/-- C10 witness: for `let x; 5` the let's node is node 1, tagged with the
let expression, linked from predecessor 0. -/
theorem c10_let_absent_initializer_witness :
    (toCfgNode fbLetNone rSimple 5 (BuildItem.expr 1) 0 sInit).2.nodeDatas[(1 : Nat)]? =
      some (NodeData.expression 1) := by
  have h := c10_let_absent_initializer fbLetNone rSimple 4 0 sInit 1 0 0 rfl
  exact h.2.2

end Lark
